import Mathlib

/-!
Shallow embedding of the LRU cache implementation in `src/src/lru/mod.rs`.

The Rust code keeps a `HashMap<K, NonNull<Node<K, V>>>` together with a
manually managed doubly linked list of heap-allocated nodes bounded by two
sentinel nodes (`head`, `tail`).  We model raw memory explicitly:

* node pointers become natural-number identifiers,
* the allocator becomes an association list `Heap K V` from identifier to
  `Node K V` plus a `fresh` counter (`Box::into_raw` appends a fresh cell,
  `Box::from_raw` deletes the cell),
* every pointer dereference goes through `hLook`; dereferencing a freed
  pointer, and `Option::unwrap` on `None`, are modelled by the surrounding
  operation returning `none` (panic / undefined behaviour),
* `HashMap` becomes the association list `c.hashmap` with replace-on-insert.

Each mutating cache operation therefore has the shape
`... → LRUCache K V → Option (result × LRUCache K V)`, where the outer
`none` means the Rust original panics or hits undefined behaviour.
The translation follows the source line by line, including the order of
pointer reads and writes.
-/

namespace LRU

/-- Doubly linked list node, from `struct Node` in the source.  The raw
pointers `prev`/`next` are modelled as optional node identifiers. -/
structure Node (K V : Type) where
  key : Option K
  value : Option V
  prev : Option Nat
  next : Option Nat
deriving DecidableEq

/-- Explicit heap of currently allocated nodes (identifier ↦ node).
An identifier missing from the heap models freed or unallocated memory. -/
abbrev Heap (K V : Type) := List (Nat × Node K V)

variable {K V : Type}

/-- Dereference a node pointer: `none` models a dangling pointer. -/
def hLook : Heap K V → Nat → Option (Node K V)
  | [], _ => none
  | p :: ps, i => if p.1 = i then some p.2 else hLook ps i

/-- Store a node through a pointer.  Fails (undefined behaviour) if the
pointer does not refer to allocated memory. -/
def hSet : Heap K V → Nat → Node K V → Option (Heap K V)
  | [], _, _ => none
  | p :: ps, i, n => if p.1 = i then some ((i, n) :: ps) else (hSet ps i n).map (p :: ·)

/-- Release a node (`Box::from_raw` followed by drop). -/
def hFree : Heap K V → Nat → Heap K V
  | [], _ => []
  | p :: ps, i => if p.1 = i then hFree ps i else p :: hFree ps i

/-- `(*p).next = x` -/
def writeNext (h : Heap K V) (i : Nat) (x : Option Nat) : Option (Heap K V) :=
  match hLook h i with
  | some n => hSet h i { n with next := x }
  | none => none

/-- `(*p).prev = x` -/
def writePrev (h : Heap K V) (i : Nat) (x : Option Nat) : Option (Heap K V) :=
  match hLook h i with
  | some n => hSet h i { n with prev := x }
  | none => none

/-- `(*p).value = x` -/
def writeValue (h : Heap K V) (i : Nat) (x : Option V) : Option (Heap K V) :=
  match hLook h i with
  | some n => hSet h i { n with value := x }
  | none => none

variable [DecidableEq K]

/-- `HashMap` lookup, on the association-list model of the index. -/
def lookupA : List (K × Nat) → K → Option Nat
  | [], _ => none
  | p :: ps, k => if p.1 = k then some p.2 else lookupA ps k

/-- `HashMap::remove`. -/
def removeA : List (K × Nat) → K → List (K × Nat)
  | [], _ => []
  | p :: ps, k => if p.1 = k then removeA ps k else p :: removeA ps k

/-- `HashMap::insert` (replaces any existing binding of the key). -/
def insertA (m : List (K × Nat)) (k : K) (i : Nat) : List (K × Nat) :=
  (k, i) :: removeA m k

/-- The cache, from `struct LRUCache` in the source.  `head` and `tail` are
the sentinel node identifiers; `fresh` is the allocator's next identifier. -/
structure LRUCache (K V : Type) where
  hashmap : List (K × Nat)
  cap : Nat
  len : Nat
  head : Nat
  tail : Nat
  heap : List (Nat × Node K V)
  fresh : Nat
deriving DecidableEq

/-- `LRUCache::new(cap)`: allocate the two sentinels (ids 0 and 1) and link
them to each other. -/
def new (cap : Nat) : LRUCache K V :=
  { hashmap := []
    cap := cap
    len := 0
    head := 0
    tail := 1
    heap := [(0, ⟨none, none, none, some 1⟩), (1, ⟨none, none, some 0, none⟩)]
    fresh := 2 }

/-- The splice sequence shared verbatim by `add` (lines 91–99) and `get`
(lines 160–165): hang node `nid` directly behind the head sentinel.
`(*node).prev = Some(head)`; `(*node).next = (*head).next`;
`head_next = (*head).next.unwrap()`; `(*head_next).prev = Some(node)`;
`(*head).next = Some(node)` — in exactly this order of reads and writes. -/
def spliceFront (h0 : Heap K V) (head : Nat) (nid : Nat) : Option (Heap K V) := do
  let h1 ← writePrev h0 nid (some head)
  let hd ← hLook h1 head
  let h2 ← writeNext h1 nid hd.next
  let hd2 ← hLook h2 head
  let hnx ← hd2.next
  let h3 ← writePrev h2 hnx (some nid)
  writeNext h3 head (some nid)

/-- The eviction block of `add` (source lines 104–119):
`last_entry = (*tail).prev.unwrap()`; clone and unwrap its key and value;
`last_prev = (*last_entry).prev.unwrap()`; `(*tail).prev = Some(last_prev)`;
`(*last_prev).next = Some(tail)`; `hashmap.remove(&key)`;
`Box::from_raw(last_entry)`.  Returns the evicted pair together with the
new heap and index.  Note that `len` is not touched here, as in the source. -/
def evictLast (h : Heap K V) (tl : Nat) (hm : List (K × Nat)) :
    Option ((K × V) × Heap K V × List (K × Nat)) := do
  let tn ← hLook h tl
  let lastE ← tn.prev
  let ln ← hLook h lastE
  let ek ← ln.key
  let ev ← ln.value
  let lp ← ln.prev
  let h5 ← writePrev h tl (some lp)
  let h6 ← writeNext h5 lp (some tl)
  return ((ek, ev), hFree h6 lastE, removeA hm ek)

/-- `LRUCache::add(key, value)` (source lines 74–121), translated write for
write.  If the key exists, the stored value is replaced in place (without
unlinking the node first!); otherwise a fresh node is allocated and `len`
is incremented.  Either way the node is then spliced in directly behind the
head sentinel, and the key is (re-)inserted into the index.  If `len`
exceeds `cap`, the node before the tail sentinel is unlinked, removed from
the index, freed, and returned; `len` is *not* decremented. -/
def add (k : K) (v : V) (c : LRUCache K V) : Option (Option (K × V) × LRUCache K V) := do
  let sel ←
    match lookupA c.hashmap k with
    | some nid => (writeValue c.heap nid (some v)).map fun h => (nid, h, c.len, c.fresh)
    | none =>
      some (c.fresh, c.heap ++ [(c.fresh, ⟨some k, some v, none, none⟩)],
            c.len + 1, c.fresh + 1)
  let nid := sel.1
  let len1 := sel.2.2.1
  let fresh1 := sel.2.2.2
  let h4 ← spliceFront sel.2.1 c.head nid
  let hm1 := insertA c.hashmap k nid
  if len1 > c.cap then
    let (ekv, h7, hm2) ← evictLast h4 c.tail hm1
    return (some ekv, ⟨hm2, c.cap, len1, c.head, c.tail, h7, fresh1⟩)
  else
    return (none, ⟨hm1, c.cap, len1, c.head, c.tail, h4, fresh1⟩)

/-- `LRUCache::remove(key)` (source lines 124–142). -/
def remove (k : K) (c : LRUCache K V) : Option (Option V × LRUCache K V) :=
  match lookupA c.hashmap k with
  | none => some (none, c)
  | some nid => do
    let hm1 := removeA c.hashmap k
    let n ← hLook c.heap nid
    let p ← n.prev
    let q ← n.next
    -- (*prev).next = Some(next); (*next).prev = Some(prev)
    let h1 ← writeNext c.heap p (some q)
    let h2 ← writePrev h1 q (some p)
    -- let val = (*value).value.clone(); Box::from_raw(value)
    let n2 ← hLook h2 nid
    let h3 := hFree h2 nid
    return (n2.value, ⟨hm1, c.cap, c.len - 1, c.head, c.tail, h3, c.fresh⟩)

/-- `LRUCache::get(key)` (source lines 149–172): on a hit the node is first
unlinked (its neighbours are relinked to each other) and then spliced in
directly behind the head sentinel; a clone of the value is returned. -/
def get (k : K) (c : LRUCache K V) : Option (Option V × LRUCache K V) :=
  match lookupA c.hashmap k with
  | none => some (none, c)
  | some nid => do
    let n ← hLook c.heap nid
    let p ← n.prev
    let q ← n.next
    -- (*prev).next = Some(next); (*next).prev = Some(prev)
    let h1 ← writeNext c.heap p (some q)
    let h2 ← writePrev h1 q (some p)
    -- then the same splice as in add: (*value).prev = Some(head), etc.
    let h6 ← spliceFront h2 c.head nid
    -- (*value).value.clone()
    let n2 ← hLook h6 nid
    return (n2.value, ⟨c.hashmap, c.cap, c.len, c.head, c.tail, h6, c.fresh⟩)

/-- `LRUCache::peek(key)` (source lines 180–188): no mutation at all. -/
def peek (k : K) (c : LRUCache K V) : Option (Option V × LRUCache K V) :=
  match lookupA c.hashmap k with
  | none => some (none, c)
  | some nid => (hLook c.heap nid).map fun n => (n.value, c)

/-- `LRUCache::get_first()` (source lines 191–199).  The result `none`
models a panic (`Option::unwrap` of `None`) or a dangling dereference. -/
def getFirst (c : LRUCache K V) : Option V := do
  let hd ← hLook c.heap c.head
  let nx ← hd.next
  let n ← hLook c.heap nx
  let v ← n.value
  return v

/-- `LRUCache::get_last()` (source lines 202–210). -/
def getLast (c : LRUCache K V) : Option V := do
  let tl ← hLook c.heap c.tail
  let pv ← tl.prev
  let n ← hLook c.heap pv
  let v ← n.value
  return v

/-- `LRUCache::is_empty()`. `LRUCache::len()` simply returns the `len`
field, which the embedding exposes directly as `c.len`. -/
def isEmpty (c : LRUCache K V) : Bool := c.len == 0

end LRU

/-! ## The data-model invariant of the specification (§3)

`WF c order` says that the cache `c` is in the state the specification
describes: `order` lists the live entries as (key, node id) pairs from
most-recently-used to least-recently-used, the heap consists of exactly the
two sentinels plus those nodes, the `next`/`prev` links form the doubly
linked chain head-sentinel → entries → tail-sentinel, the index agrees
with `order`, and `len` counts the live entries. -/

namespace LRU

variable {K V : Type}

/-- Follow a `next` link through the heap (`none` if the node is dead or
its link is null). -/
def nxt (h : Heap K V) (i : Nat) : Option Nat := (hLook h i).bind Node.next

/-- Follow a `prev` link through the heap. -/
def prv (h : Heap K V) (i : Nat) : Option Nat := (hLook h i).bind Node.prev

/-- Read the key stored at a node. -/
def keyOf (h : Heap K V) (i : Nat) : Option K := (hLook h i).bind Node.key

/-- Read the value stored at a node. -/
def valOf (h : Heap K V) (i : Nat) : Option V := (hLook h i).bind Node.value

/-- `a` and `b` are doubly linked neighbours: `a.next = b` and `b.prev = a`
(both nodes alive). -/
def linked (h : Heap K V) (a b : Nat) : Prop := nxt h a = some b ∧ prv h b = some a

instance (h : Heap K V) (a b : Nat) : Decidable (linked h a b) :=
  inferInstanceAs (Decidable (nxt h a = some b ∧ prv h b = some a))

/-- The node ids `a :: xs ++ [b]` form a doubly linked chain: every
adjacent pair of the list is `linked`. -/
def chainSeg (h : Heap K V) : Nat → List Nat → Nat → Prop
  | a, [], b => linked h a b
  | a, x :: xs, b => linked h a x ∧ chainSeg h x xs b

instance instDecChainSeg (h : Heap K V) :
    (a : Nat) → (xs : List Nat) → (b : Nat) → Decidable (chainSeg h a xs b)
  | a, [], b => inferInstanceAs (Decidable (linked h a b))
  | a, x :: xs, b =>
      have : Decidable (chainSeg h x xs b) := instDecChainSeg h x xs b
      inferInstanceAs (Decidable (linked h a x ∧ chainSeg h x xs b))

@[simp] theorem chainSeg_nil (h : Heap K V) (a b : Nat) :
    chainSeg h a [] b ↔ linked h a b := Iff.rfl

@[simp] theorem chainSeg_cons (h : Heap K V) (a x b : Nat) (xs : List Nat) :
    chainSeg h a (x :: xs) b ↔ linked h a x ∧ chainSeg h x xs b := Iff.rfl

variable [DecidableEq K]

/-- The structural invariant on cache states (§3 of the spec), with
`order` the MRU-to-LRU list of (key, node id) pairs: the doubly linked
chain, heap-domain, index and sentinel conditions.  The specification's
remaining count condition (`len` equals the number of live entries) is
stated separately where needed, since it is the subject of its own
claims. -/
@[mk_iff WF_iff]
structure WF (c : LRUCache K V) (order : List (K × Nat)) : Prop where
  chain : chainSeg c.heap c.head (order.map Prod.snd) c.tail
  domain : (c.heap.map Prod.fst).Perm (c.head :: order.map Prod.snd ++ [c.tail])
  nodupIds : (c.head :: order.map Prod.snd ++ [c.tail]).Nodup
  nodupKeys : (order.map Prod.fst).Nodup
  entriesKey : ∀ p ∈ order, keyOf c.heap p.2 = some p.1
  entriesVal : ∀ p ∈ order, (valOf c.heap p.2).isSome = true
  hmOrder : ∀ p ∈ order, lookupA c.hashmap p.1 = some p.2
  hmSub : ∀ p ∈ c.hashmap, lookupA order p.1 = some p.2
  headKey : keyOf c.heap c.head = none
  headVal : valOf c.heap c.head = none
  headPrev : prv c.heap c.head = none
  tailKey : keyOf c.heap c.tail = none
  tailVal : valOf c.heap c.tail = none
  tailNext : nxt c.heap c.tail = none
  freshBound : ∀ i ∈ c.heap.map Prod.fst, i < c.fresh

instance [DecidableEq V] (c : LRUCache K V) (order : List (K × Nat)) :
    Decidable (WF c order) :=
  decidable_of_iff _ (WF_iff c order).symm

/-- One step of the cache's public mutating interface: some `add`, `get`,
`remove` or `peek` call that completes without panic or undefined
behaviour, taking the state from `c` to `c'`. -/
def Step (c c' : LRUCache K V) : Prop :=
  (∃ k v r, add k v c = some (r, c')) ∨
  (∃ k r, get k c = some (r, c')) ∨
  (∃ k r, remove k c = some (r, c')) ∨
  (∃ k r, peek k c = some (r, c'))

/-- Cache states reachable from `new cap` by public operations. -/
def Reach (cap : Nat) (c : LRUCache K V) : Prop :=
  Relation.ReflTransGen Step (new cap) c

/-- A one-entry well-formed cache over `Nat` keys and values, used as a
concrete sample state: capacity 5, the single entry `(1 ↦ 7)` at node 2. -/
def sampleOne : LRUCache Nat Nat :=
  ⟨[(1, 2)], 5, 1, 0, 1,
   [(0, ⟨none, none, none, some 2⟩), (1, ⟨none, none, some 2, none⟩),
    (2, ⟨some 1, some 7, some 0, some 1⟩)], 3⟩

end LRU

/-! ## Heap and association-list toolkit -/

namespace LRU

variable {K V : Type}

theorem hLook_hSet {h h' : Heap K V} {i : Nat} {n : Node K V}
    (hs : hSet h i n = some h') (j : Nat) :
    hLook h' j = if j = i then some n else hLook h j := by
  induction h generalizing h' with
  | nil => simp [hSet] at hs
  | cons p ps ih =>
    by_cases hpi : p.1 = i
    · simp only [hSet, if_pos hpi, Option.some.injEq] at hs
      subst hs
      by_cases hji : j = i
      · subst hji
        simp [hLook]
      · rw [if_neg hji]
        simp only [hLook]
        rw [if_neg (fun hij : i = j => hji hij.symm),
            if_neg (fun hpj : p.1 = j => hji (hpj.symm.trans hpi))]
    · simp only [hSet, if_neg hpi] at hs
      cases hps : hSet ps i n with
      | none => rw [hps] at hs; simp at hs
      | some ps' =>
        rw [hps] at hs
        simp only [Option.map_some', Option.some.injEq] at hs
        subst hs
        simp only [hLook, ih hps]
        by_cases hpj : p.1 = j
        · have hji : ¬ j = i := fun hji => hpi (hpj.trans hji)
          rw [if_pos hpj, if_neg hji, if_pos hpj]
        · rw [if_neg hpj, if_neg hpj]

theorem hSet_map_fst {h h' : Heap K V} {i : Nat} {n : Node K V}
    (hs : hSet h i n = some h') : h'.map Prod.fst = h.map Prod.fst := by
  induction h generalizing h' with
  | nil => simp [hSet] at hs
  | cons p ps ih =>
    by_cases hpi : p.1 = i
    · simp only [hSet, if_pos hpi, Option.some.injEq] at hs
      subst hs
      simp [hpi]
    · simp only [hSet, if_neg hpi] at hs
      cases hps : hSet ps i n with
      | none => rw [hps] at hs; simp at hs
      | some ps' =>
        rw [hps] at hs
        simp only [Option.map_some', Option.some.injEq] at hs
        subst hs
        simp [ih hps]

theorem hSet_isSome {h : Heap K V} {i : Nat} {m : Node K V}
    (hl : hLook h i = some m) (n : Node K V) : ∃ h', hSet h i n = some h' := by
  induction h with
  | nil => simp [hLook] at hl
  | cons p ps ih =>
    by_cases hpi : p.1 = i
    · exact ⟨(i, n) :: ps, by simp [hSet, hpi]⟩
    · simp only [hLook, if_neg hpi] at hl
      obtain ⟨ps', hps⟩ := ih hl
      exact ⟨p :: ps', by simp [hSet, hpi, hps]⟩

theorem hLook_hFree (h : Heap K V) (i j : Nat) :
    hLook (hFree h i) j = if j = i then none else hLook h j := by
  induction h with
  | nil => simp [hFree, hLook]
  | cons p ps ih =>
    simp only [hFree]
    by_cases hpi : p.1 = i
    · rw [if_pos hpi, ih]
      by_cases hji : j = i
      · rw [if_pos hji, if_pos hji]
      · rw [if_neg hji, if_neg hji]
        simp only [hLook]
        rw [if_neg (fun hpj : p.1 = j => hji (hpj.symm.trans hpi))]
    · rw [if_neg hpi]
      simp only [hLook]
      by_cases hpj : p.1 = j
      · rw [if_pos hpj, if_neg (fun hji : j = i => hpi (hpj.trans hji)), if_pos hpj]
      · rw [if_neg hpj, ih]
        by_cases hji : j = i
        · rw [if_pos hji, if_pos hji]
        · rw [if_neg hji, if_neg hji, if_neg hpj]

theorem hFree_map_fst (h : Heap K V) (i : Nat) :
    (hFree h i).map Prod.fst = (h.map Prod.fst).filter (fun j => decide (j ≠ i)) := by
  induction h with
  | nil => simp [hFree]
  | cons p ps ih =>
    by_cases hpi : p.1 = i
    · simp [hFree, hpi, List.filter, ih]
    · simp [hFree, hpi, List.filter, ih]

theorem hLook_isSome_iff_mem (h : Heap K V) (i : Nat) :
    (hLook h i).isSome = true ↔ i ∈ h.map Prod.fst := by
  induction h with
  | nil => simp [hLook]
  | cons p ps ih =>
    by_cases hpi : p.1 = i
    · simp [hLook, hpi]
    · have hip : ¬ i = p.1 := fun hip => hpi hip.symm
      simp [hLook, hpi, ih, hip]

theorem hLook_append_left {h : Heap K V} {j : Nat} {n : Node K V} (h2 : Heap K V)
    (hl : hLook h j = some n) : hLook (h ++ h2) j = some n := by
  induction h with
  | nil => simp [hLook] at hl
  | cons p ps ih =>
    by_cases hpj : p.1 = j
    · simp only [hLook, if_pos hpj] at hl
      simp [hLook, hpj, hl]
    · simp only [hLook, if_neg hpj] at hl
      simp [hLook, hpj, ih hl]

theorem hLook_append_right {h : Heap K V} {j : Nat} (h2 : Heap K V)
    (hl : hLook h j = none) : hLook (h ++ h2) j = hLook h2 j := by
  induction h with
  | nil => simp [hLook]
  | cons p ps ih =>
    by_cases hpj : p.1 = j
    · simp [hLook, hpj] at hl
    · simp only [hLook, if_neg hpj] at hl
      simp [hLook, hpj, ih hl]

/-- Effect of `writeNext`: succeeds on a live node, updates exactly the
`next` field of exactly that node. -/
theorem writeNext_spec {h : Heap K V} {i : Nat} {n : Node K V}
    (hl : hLook h i = some n) (x : Option Nat) :
    ∃ h', writeNext h i x = some h' ∧
      hLook h' i = some { n with next := x } ∧
      (∀ j, j ≠ i → hLook h' j = hLook h j) ∧
      h'.map Prod.fst = h.map Prod.fst := by
  obtain ⟨h', hs⟩ := hSet_isSome hl { n with next := x }
  refine ⟨h', ?_, ?_, ?_, hSet_map_fst hs⟩
  · simp [writeNext, hl, hs]
  · simp [hLook_hSet hs]
  · intro j hj; simp [hLook_hSet hs, hj]

/-- Effect of `writePrev`. -/
theorem writePrev_spec {h : Heap K V} {i : Nat} {n : Node K V}
    (hl : hLook h i = some n) (x : Option Nat) :
    ∃ h', writePrev h i x = some h' ∧
      hLook h' i = some { n with prev := x } ∧
      (∀ j, j ≠ i → hLook h' j = hLook h j) ∧
      h'.map Prod.fst = h.map Prod.fst := by
  obtain ⟨h', hs⟩ := hSet_isSome hl { n with prev := x }
  refine ⟨h', ?_, ?_, ?_, hSet_map_fst hs⟩
  · simp [writePrev, hl, hs]
  · simp [hLook_hSet hs]
  · intro j hj; simp [hLook_hSet hs, hj]

/-- Effect of `writeValue`. -/
theorem writeValue_spec {h : Heap K V} {i : Nat} {n : Node K V}
    (hl : hLook h i = some n) (x : Option V) :
    ∃ h', writeValue h i x = some h' ∧
      hLook h' i = some { n with value := x } ∧
      (∀ j, j ≠ i → hLook h' j = hLook h j) ∧
      h'.map Prod.fst = h.map Prod.fst := by
  obtain ⟨h', hs⟩ := hSet_isSome hl { n with value := x }
  refine ⟨h', ?_, ?_, ?_, hSet_map_fst hs⟩
  · simp [writeValue, hl, hs]
  · simp [hLook_hSet hs]
  · intro j hj; simp [hLook_hSet hs, hj]

theorem chainSeg_append (h : Heap K V) (a m b : Nat) (xs ys : List Nat) :
    chainSeg h a (xs ++ m :: ys) b ↔ chainSeg h a xs m ∧ chainSeg h m ys b := by
  induction xs generalizing a with
  | nil => simp
  | cons x xs ih => simp [ih, and_assoc]

theorem chainSeg_congr {h h' : Heap K V} {a b : Nat} {xs : List Nat}
    (hn : ∀ i ∈ a :: xs, nxt h' i = nxt h i)
    (hp : ∀ i ∈ xs ++ [b], prv h' i = prv h i)
    (hc : chainSeg h a xs b) : chainSeg h' a xs b := by
  induction xs generalizing a with
  | nil =>
    obtain ⟨h1, h2⟩ := hc
    exact ⟨(hn a (by simp)).trans h1, (hp b (by simp)).trans h2⟩
  | cons x xs ih =>
    obtain ⟨⟨h1, h2⟩, hc⟩ := hc
    refine ⟨⟨(hn a (by simp)).trans h1, (hp x (by simp)).trans h2⟩, ?_⟩
    exact ih (fun i hi => hn i (List.mem_cons_of_mem a hi))
      (fun i hi => hp i (List.mem_cons_of_mem x hi)) hc

theorem chainSeg_lastD {h : Heap K V} {a b : Nat} {xs : List Nat}
    (hc : chainSeg h a xs b) : linked h (xs.getLastD a) b := by
  induction xs generalizing a with
  | nil => exact hc
  | cons x xs ih =>
    rw [List.getLastD_cons]
    exact ih hc.2

theorem chainSeg_headD {h : Heap K V} {a b : Nat} {xs : List Nat}
    (hc : chainSeg h a xs b) : linked h a (xs.headD b) := by
  cases xs with
  | nil => exact hc
  | cons x xs => exact hc.1

theorem getLastD_mem_cons (xs : List Nat) (a : Nat) : xs.getLastD a ∈ a :: xs := by
  induction xs generalizing a with
  | nil => simp
  | cons x xs ih =>
    rw [List.getLastD_cons]
    have := ih x
    simp only [List.mem_cons] at this ⊢
    tauto

theorem headD_mem_append (xs : List Nat) (b : Nat) : xs.headD b ∈ xs ++ [b] := by
  cases xs <;> simp

theorem getLastD_mem_of_ne_nil {xs : List Nat} (h : xs ≠ []) (a : Nat) :
    xs.getLastD a ∈ xs := by
  cases xs with
  | nil => exact absurd rfl h
  | cons x xt =>
    rw [List.getLastD_cons]
    exact getLastD_mem_cons xt x

theorem eq_nil_or_append_singleton (xs : List Nat) :
    xs = [] ∨ ∃ xf xl, xs = xf ++ [xl] := by
  rcases List.eq_nil_or_concat xs with h | ⟨xf, xl, h⟩
  · exact Or.inl h
  · exact Or.inr ⟨xf, xl, by simpa using h⟩

/-- Distinctness facts for a chain list split around a middle element. -/
theorem nodup_split3 {a b m : Nat} {xs ys : List Nat}
    (h : (a :: (xs ++ m :: ys) ++ [b]).Nodup) :
    (a :: xs).Nodup ∧ m ∉ a :: xs ∧ m ∉ ys ++ [b] ∧ (ys ++ [b]).Nodup ∧
    (∀ i ∈ a :: xs, i ∉ ys ++ [b]) := by
  have hshape : a :: (xs ++ m :: ys) ++ [b] = (a :: xs) ++ m :: (ys ++ [b]) := by
    simp
  rw [hshape, List.nodup_append] at h
  obtain ⟨h1, h2, h3⟩ := h
  rw [List.nodup_cons] at h2
  refine ⟨h1, fun hmem => h3 hmem (by simp), h2.1, h2.2, ?_⟩
  exact fun i hi hiy => h3 hi (List.mem_cons_of_mem m hiy)

/-- Distinctness facts for a plain chain list. -/
theorem nodup_chain_facts {a b : Nat} {xs : List Nat}
    (h : (a :: xs ++ [b]).Nodup) :
    a ∉ xs ∧ b ∉ xs ∧ a ≠ b ∧ xs.Nodup := by
  have hshape : a :: xs ++ [b] = (a :: xs) ++ [b] := by simp
  rw [hshape, List.nodup_append] at h
  obtain ⟨h1, _, h3⟩ := h
  rw [List.nodup_cons] at h1
  refine ⟨h1.1, ?_, ?_, h1.2⟩
  · exact fun hb => h3 (List.mem_cons_of_mem a hb) (show b ∈ [b] by simp)
  · exact fun he => h3 (show a ∈ a :: xs by simp) (show a ∈ [b] by simp [he])

/-- Unlinking the node `m` from a doubly linked chain.  If the new heap
`h'` relinks `m`'s old neighbours `p := xs.getLastD a` and
`q := ys.headD b` to each other and leaves every other `next`/`prev`
field of the chain unchanged, the chain without `m` is again doubly
linked. -/
theorem unlink_chain {h h' : Heap K V} {a b m : Nat} {xs ys : List Nat}
    (hchain : chainSeg h a (xs ++ m :: ys) b)
    (hnodup : (a :: (xs ++ m :: ys) ++ [b]).Nodup)
    (hB : nxt h' (xs.getLastD a) = some (ys.headD b))
    (hC : prv h' (ys.headD b) = some (xs.getLastD a))
    (hFn : ∀ i, i ≠ xs.getLastD a → i ≠ m → nxt h' i = nxt h i)
    (hFp : ∀ i, i ≠ ys.headD b → i ≠ m → prv h' i = prv h i) :
    chainSeg h' a (xs ++ ys) b := by
  obtain ⟨hseg1, hseg2⟩ := (chainSeg_append h a m b xs ys).mp hchain
  obtain ⟨nd1, hmA, hmB, ndB, hdisj⟩ := nodup_split3 hnodup
  have hfront : chainSeg h' a xs (ys.headD b) := by
    rcases eq_nil_or_append_singleton xs with rfl | ⟨xf, xl, rfl⟩
    · exact ⟨hB, hC⟩
    · rw [List.getLastD_concat] at hB hC hFn
      refine (chainSeg_append h' a xl (ys.headD b) xf []).mpr ⟨?_, ⟨hB, hC⟩⟩
      obtain ⟨hfx, _⟩ := (chainSeg_append h a xl m xf []).mp hseg1
      refine chainSeg_congr ?_ ?_ hfx
      · intro i hi
        have hixs : i ∈ a :: (xf ++ [xl]) := by
          rcases List.mem_cons.mp hi with h1 | h1
          · simp [h1]
          · simp [h1]
        have hxl : xl ∉ a :: xf := by
          have h2 : ((a :: xf) ++ [xl]).Nodup := by simpa using nd1
          rw [List.nodup_append] at h2
          exact fun hmem => h2.2.2 hmem (by simp)
        exact hFn i (fun he => hxl (he ▸ hi)) (fun he => hmA (he ▸ hixs))
      · intro i hi
        have hixs : i ∈ a :: (xf ++ [xl]) := List.mem_cons_of_mem a hi
        refine hFp i ?_ (fun he => hmA (he ▸ hixs))
        exact fun he => hdisj i hixs (he ▸ headD_mem_append ys b)
  rcases ys with _ | ⟨y0, yt⟩
  · simpa using hfront
  · rw [List.headD_cons] at hfront hC hFp
    refine (chainSeg_append h' a y0 b xs yt).mpr ⟨hfront, ?_⟩
    refine chainSeg_congr ?_ ?_ hseg2.2
    · intro i hi
      have hiB : i ∈ (y0 :: yt) ++ [b] := List.mem_append_left _ hi
      refine hFn i ?_ (fun he => hmB (he ▸ hiB))
      exact fun he => hdisj _ (getLastD_mem_cons xs a) (he ▸ hiB)
    · intro i hi
      have hiB : i ∈ (y0 :: yt) ++ [b] := by
        rcases List.mem_append.mp hi with h1 | h1
        · exact List.mem_append_left _ (List.mem_cons_of_mem y0 h1)
        · exact List.mem_append_right _ h1
      refine hFp i ?_ (fun he => hmB (he ▸ hiB))
      have hy0 : y0 ∉ yt ++ [b] := by
        have h2 := ndB
        rw [List.cons_append, List.nodup_cons] at h2
        exact h2.1
      exact fun he => hy0 (he ▸ hi)

/-- Splicing a fresh node `m` in directly behind the chain head `a`:
if `h'` links `a ↔ m ↔` (old first element) and leaves all other links of
the chain unchanged, the chain with `m` in front is doubly linked. -/
theorem splice_chain {h h' : Heap K V} {a b m : Nat} {xs : List Nat}
    (hchain : chainSeg h a xs b)
    (hnodup : (a :: xs ++ [b]).Nodup)
    (hm : m ∉ a :: xs ++ [b])
    (hB1 : nxt h' a = some m) (hB2 : prv h' m = some a)
    (hB3 : nxt h' m = some (xs.headD b)) (hB4 : prv h' (xs.headD b) = some m)
    (hFn : ∀ i, i ≠ a → i ≠ m → nxt h' i = nxt h i)
    (hFp : ∀ i, i ≠ xs.headD b → i ≠ m → prv h' i = prv h i) :
    chainSeg h' a (m :: xs) b := by
  refine ⟨⟨hB1, hB2⟩, ?_⟩
  obtain ⟨hax, hbx, hab, ndx⟩ := nodup_chain_facts hnodup
  cases xs with
  | nil => exact ⟨hB3, hB4⟩
  | cons x0 xt =>
    rw [List.headD_cons] at hB3 hB4 hFp
    refine ⟨⟨hB3, hB4⟩, ?_⟩
    refine chainSeg_congr ?_ ?_ hchain.2
    · intro i hi
      have hifull : i ∈ a :: ((x0 :: xt) ++ [b]) :=
        List.mem_cons_of_mem a (List.mem_append_left _ hi)
      exact hFn i (fun he => hax (he ▸ hi)) (fun he => hm (he ▸ hifull))
    · intro i hi
      have hifull : i ∈ a :: ((x0 :: xt) ++ [b]) := by
        rcases List.mem_append.mp hi with h1 | h1
        · exact List.mem_cons_of_mem a (List.mem_append_left _ (List.mem_cons_of_mem x0 h1))
        · exact List.mem_cons_of_mem a (List.mem_append_right _ h1)
      refine hFp i ?_ (fun he => hm (he ▸ hifull))
      have hx0 : x0 ∉ xt ++ [b] := by
        have h2 := hnodup
        rw [List.cons_append, List.nodup_cons] at h2
        exact (List.nodup_cons.mp h2.2).1
      exact fun he => hx0 (he ▸ hi)

end LRU

/-! ## Association-list lemmas -/

namespace LRU

variable {K V : Type} [DecidableEq K]

theorem lookupA_eq_none {m : List (K × Nat)} {k : K} :
    lookupA m k = none ↔ k ∉ m.map Prod.fst := by
  induction m with
  | nil => simp [lookupA]
  | cons p ps ih =>
    by_cases hpk : p.1 = k
    · simp [lookupA, hpk]
    · have hkp : ¬ k = p.1 := fun hkp => hpk hkp.symm
      simp [lookupA, hpk, ih, hkp]

theorem lookupA_some_mem {m : List (K × Nat)} {k : K} {i : Nat}
    (hl : lookupA m k = some i) : (k, i) ∈ m := by
  induction m with
  | nil => simp [lookupA] at hl
  | cons p ps ih =>
    by_cases hpk : p.1 = k
    · simp only [lookupA, if_pos hpk, Option.some.injEq] at hl
      subst hl
      subst hpk
      simp
    · simp only [lookupA, if_neg hpk] at hl
      exact List.mem_cons_of_mem p (ih hl)

theorem mem_lookupA_of_nodup {m : List (K × Nat)} (hn : (m.map Prod.fst).Nodup)
    {k : K} {i : Nat} (hm : (k, i) ∈ m) : lookupA m k = some i := by
  induction m with
  | nil => simp at hm
  | cons p ps ih =>
    rcases List.mem_cons.mp hm with he | hm2
    · subst he
      simp [lookupA]
    · have hpk : ¬ p.1 = k := by
        intro hpk
        have : k ∈ ps.map Prod.fst := List.mem_map_of_mem Prod.fst hm2
        rw [← hpk] at this
        exact (List.nodup_cons.mp (by simpa using hn)).1 this
      simp only [lookupA, if_neg hpk]
      exact ih (List.nodup_cons.mp (by simpa using hn)).2 hm2

theorem lookupA_some_split {m : List (K × Nat)} {k : K} {i : Nat}
    (hl : lookupA m k = some i) :
    ∃ m1 m2, m = m1 ++ (k, i) :: m2 ∧ k ∉ m1.map Prod.fst := by
  induction m with
  | nil => simp [lookupA] at hl
  | cons p ps ih =>
    by_cases hpk : p.1 = k
    · simp only [lookupA, if_pos hpk, Option.some.injEq] at hl
      subst hl
      refine ⟨[], ps, ?_, by simp⟩
      obtain ⟨p1, p2⟩ := p
      simp at hpk
      subst hpk
      rfl
    · simp only [lookupA, if_neg hpk] at hl
      obtain ⟨m1, m2, he, hk⟩ := ih hl
      refine ⟨p :: m1, m2, by simp [he], ?_⟩
      simp only [List.map_cons, List.mem_cons]
      rintro (hkp | hk2)
      · exact hpk hkp.symm
      · exact hk hk2

theorem lookupA_append_of_none {m1 : List (K × Nat)} {k : K}
    (h : lookupA m1 k = none) (m2 : List (K × Nat)) :
    lookupA (m1 ++ m2) k = lookupA m2 k := by
  induction m1 with
  | nil => simp
  | cons p ps ih =>
    by_cases hpk : p.1 = k
    · simp [lookupA, hpk] at h
    · simp only [lookupA, if_neg hpk] at h
      simp only [List.cons_append, lookupA, if_neg hpk]
      exact ih h

theorem lookupA_append_of_some {m1 : List (K × Nat)} {k : K} {i : Nat}
    (h : lookupA m1 k = some i) (m2 : List (K × Nat)) :
    lookupA (m1 ++ m2) k = some i := by
  induction m1 with
  | nil => simp [lookupA] at h
  | cons p ps ih =>
    by_cases hpk : p.1 = k
    · simp only [lookupA, if_pos hpk, Option.some.injEq] at h
      simp [lookupA, hpk, h]
    · simp only [lookupA, if_neg hpk] at h
      simp only [List.cons_append, lookupA, if_neg hpk]
      exact ih h

theorem lookupA_removeA_self (m : List (K × Nat)) (k : K) :
    lookupA (removeA m k) k = none := by
  induction m with
  | nil => simp [removeA, lookupA]
  | cons p ps ih =>
    by_cases hpk : p.1 = k
    · simp [removeA, hpk, ih]
    · simp [removeA, hpk, lookupA, ih]

theorem lookupA_removeA_ne {k' k : K} (h : ¬ k' = k) (m : List (K × Nat)) :
    lookupA (removeA m k) k' = lookupA m k' := by
  induction m with
  | nil => simp [removeA]
  | cons p ps ih =>
    by_cases hpk : p.1 = k
    · have hpk' : ¬ p.1 = k' := fun hpk' => h (hpk'.symm.trans hpk)
      simp only [removeA, if_pos hpk, lookupA, if_neg hpk']
      exact ih
    · simp only [removeA, if_neg hpk, lookupA]
      by_cases hpk2 : p.1 = k'
      · rw [if_pos hpk2, if_pos hpk2]
      · rw [if_neg hpk2, if_neg hpk2]
        exact ih

theorem mem_removeA {m : List (K × Nat)} {k : K} {p : K × Nat}
    (hp : p ∈ removeA m k) : p ∈ m ∧ ¬ p.1 = k := by
  induction m with
  | nil => simp [removeA] at hp
  | cons q qs ih =>
    by_cases hqk : q.1 = k
    · simp only [removeA, if_pos hqk] at hp
      exact ⟨List.mem_cons_of_mem q (ih hp).1, (ih hp).2⟩
    · simp only [removeA, if_neg hqk] at hp
      rcases List.mem_cons.mp hp with he | hp2
      · exact ⟨by simp [he], he ▸ hqk⟩
      · exact ⟨List.mem_cons_of_mem q (ih hp2).1, (ih hp2).2⟩

theorem removeA_of_not_mem {m : List (K × Nat)} {k : K}
    (h : k ∉ m.map Prod.fst) : removeA m k = m := by
  induction m with
  | nil => rfl
  | cons p ps ih =>
    simp only [List.map_cons, List.mem_cons] at h
    push_neg at h
    have hpk : ¬ p.1 = k := fun hpk => h.1 hpk.symm
    simp [removeA, hpk, ih h.2]

theorem lookupA_insertA_self (m : List (K × Nat)) (k : K) (i : Nat) :
    lookupA (insertA m k i) k = some i := by
  simp [insertA, lookupA]

theorem lookupA_insertA_ne {k' k : K} (h : ¬ k' = k) (m : List (K × Nat)) (i : Nat) :
    lookupA (insertA m k i) k' = lookupA m k' := by
  have hkk : ¬ k = k' := fun he => h he.symm
  simp [insertA, lookupA, hkk, lookupA_removeA_ne h]

theorem removeA_append (m1 m2 : List (K × Nat)) (k : K) :
    removeA (m1 ++ m2) k = removeA m1 k ++ removeA m2 k := by
  induction m1 with
  | nil => simp [removeA]
  | cons p ps ih =>
    by_cases hpk : p.1 = k
    · simp [removeA, hpk, ih]
    · simp [removeA, hpk, ih]

theorem lookupA_middle_ne {x k : K} (hx : ¬ x = k) (o1 o2 : List (K × Nat)) (i : Nat) :
    lookupA (o1 ++ (k, i) :: o2) x = lookupA (o1 ++ o2) x := by
  cases e : lookupA o1 x with
  | some j => rw [lookupA_append_of_some e, lookupA_append_of_some e]
  | none =>
    rw [lookupA_append_of_none e, lookupA_append_of_none e]
    have hkx : ¬ k = x := fun he => hx he.symm
    simp [lookupA, hkx]

omit [DecidableEq K] in
theorem nodup_keys_split {o1 o2 : List (K × Nat)} {k : K} {i : Nat}
    (h : ((o1 ++ (k, i) :: o2).map Prod.fst).Nodup) :
    k ∉ o1.map Prod.fst ∧ k ∉ o2.map Prod.fst ∧ ((o1 ++ o2).map Prod.fst).Nodup := by
  rw [List.map_append, List.map_cons, List.nodup_append] at h
  obtain ⟨n1, n2, disj⟩ := h
  rw [List.nodup_cons] at n2
  refine ⟨fun hmem => disj hmem (by simp), n2.1, ?_⟩
  rw [List.map_append, List.nodup_append]
  exact ⟨n1, n2.2, fun a ha hb => disj ha (List.mem_cons_of_mem k hb)⟩

end LRU

/-! ## Pointwise filter helper -/

namespace LRU

theorem filter_ne_of_not_mem {l : List Nat} {m : Nat} (h : m ∉ l) :
    l.filter (fun j => decide (j ≠ m)) = l := by
  induction l with
  | nil => rfl
  | cons x xs ih =>
    simp only [List.mem_cons] at h
    push_neg at h
    have hxm : (decide (x ≠ m)) = true := by
      simp
      exact fun he => h.1 he.symm
    rw [List.filter_cons, if_pos hxm, ih h.2]

end LRU

/-! ## Execution lemmas for the shared splice and evict blocks -/

namespace LRU

variable {K V : Type}

/-- `writeNext` never changes any stored value. -/
theorem valOf_writeNext {h h' : Heap K V} {i : Nat} {x : Option Nat}
    (hw : writeNext h i x = some h') : ∀ j, valOf h' j = valOf h j := by
  intro j
  unfold writeNext at hw
  cases e : hLook h i with
  | none => rw [e] at hw; cases hw
  | some n =>
    rw [e] at hw
    unfold valOf
    rw [hLook_hSet hw]
    by_cases hji : j = i
    · subst hji
      rw [if_pos rfl, e]
      rfl
    · rw [if_neg hji]

/-- `writePrev` never changes any stored value. -/
theorem valOf_writePrev {h h' : Heap K V} {i : Nat} {x : Option Nat}
    (hw : writePrev h i x = some h') : ∀ j, valOf h' j = valOf h j := by
  intro j
  unfold writePrev at hw
  cases e : hLook h i with
  | none => rw [e] at hw; cases hw
  | some n =>
    rw [e] at hw
    unfold valOf
    rw [hLook_hSet hw]
    by_cases hji : j = i
    · subst hji
      rw [if_pos rfl, e]
      rfl
    · rw [if_neg hji]

/-- `writeNext` preserves the heap domain, hence liveness of every cell. -/
theorem writeNext_map_fst {h h' : Heap K V} {i : Nat} {x : Option Nat}
    (hw : writeNext h i x = some h') : h'.map Prod.fst = h.map Prod.fst := by
  unfold writeNext at hw
  cases e : hLook h i with
  | none => rw [e] at hw; cases hw
  | some n =>
    rw [e] at hw
    exact hSet_map_fst hw

theorem writePrev_map_fst {h h' : Heap K V} {i : Nat} {x : Option Nat}
    (hw : writePrev h i x = some h') : h'.map Prod.fst = h.map Prod.fst := by
  unfold writePrev at hw
  cases e : hLook h i with
  | none => rw [e] at hw; cases hw
  | some n =>
    rw [e] at hw
    exact hSet_map_fst hw

theorem live_iff_of_map_fst {h h' : Heap K V}
    (hm : h'.map Prod.fst = h.map Prod.fst) (j : Nat) :
    (hLook h' j).isSome = (hLook h j).isSome := by
  have h1 := hLook_isSome_iff_mem h' j
  have h2 := hLook_isSome_iff_mem h j
  rw [hm] at h1
  by_cases hmem : j ∈ h.map Prod.fst
  · rw [h1.mpr hmem, h2.mpr hmem]
  · cases e1 : (hLook h' j).isSome
    · cases e2 : (hLook h j).isSome
      · rfl
      · exact absurd (h2.mp e2) hmem
    · exact absurd (h1.mp e1) hmem

/-- Appending a fresh cell changes no other lookup. -/
theorem hLook_append_ne {h : Heap K V} {f : Nat} (n : Node K V) {j : Nat}
    (hj : j ≠ f) : hLook (h ++ [(f, n)]) j = hLook h j := by
  cases e : hLook h j with
  | some m => exact hLook_append_left _ e
  | none =>
    rw [hLook_append_right _ e]
    have hfj : ¬ f = j := fun he => hj he.symm
    simp [hLook, hfj]

theorem hLook_append_self {h : Heap K V} {f : Nat} (n : Node K V)
    (hf : hLook h f = none) : hLook (h ++ [(f, n)]) f = some n := by
  rw [hLook_append_right _ hf]
  simp [hLook]

/-- Heap-level effect of `spliceFront h head nid` when `nid` and `head`
are live, `head ≠ nid`, and `head`'s `next` points at a live node
`f0 ≠ head`. -/
theorem spliceFront_spec {h : Heap K V} {head nid f0 : Nat}
    {n nh nf : Node K V}
    (hn : hLook h nid = some n) (hh : hLook h head = some nh)
    (hne : nid ≠ head) (hf0 : nh.next = some f0)
    (hfl : hLook h f0 = some nf) (hfh : f0 ≠ head) :
    ∃ h', spliceFront h head nid = some h' ∧
      hLook h' head = some { nh with next := some nid } ∧
      hLook h' nid = some { n with
        prev := if f0 = nid then some nid else some head, next := some f0 } ∧
      (f0 ≠ nid → hLook h' f0 = some { nf with prev := some nid }) ∧
      (∀ j, j ≠ head → j ≠ nid → j ≠ f0 → hLook h' j = hLook h j) ∧
      h'.map Prod.fst = h.map Prod.fst := by
  obtain ⟨h1, e1, l1at, l1fr, m1⟩ := writePrev_spec hn (some head)
  have hh1 : hLook h1 head = some nh := (l1fr head (fun he => hne he.symm)).trans hh
  obtain ⟨h2, e2, l2at, l2fr, m2⟩ := writeNext_spec l1at (some f0)
  have hh2 : hLook h2 head = some nh := (l2fr head (fun he => hne he.symm)).trans hh1
  have hn2 : hLook h2 nid = some { n with prev := some head, next := some f0 } := l2at
  by_cases hfn : f0 = nid
  · subst hfn
    obtain ⟨h3, e3, l3at, l3fr, m3⟩ := writePrev_spec hn2 (some f0)
    have hh3 : hLook h3 head = some nh := (l3fr head (fun he => hfh he.symm)).trans hh2
    obtain ⟨h4, e4, l4at, l4fr, m4⟩ := writeNext_spec hh3 (some f0)
    refine ⟨h4, ?_, l4at, ?_, fun hc => absurd rfl hc, ?_, ?_⟩
    · simp only [spliceFront, e1, Option.bind_eq_bind, Option.some_bind, hh1, e2, hh2, hf0, e3, e4]
    · rw [l4fr f0 hfh, l3at]
      simp
    · intro j hjh hjn hjf
      rw [l4fr j hjh, l3fr j hjf, l2fr j hjf, l1fr j hjf]
    · rw [m4, m3, m2, m1]
  · have hf2 : hLook h2 f0 = some nf := by
      rw [l2fr f0 hfn, l1fr f0 hfn]
      exact hfl
    obtain ⟨h3, e3, l3at, l3fr, m3⟩ := writePrev_spec hf2 (some nid)
    have hh3 : hLook h3 head = some nh := by
      rw [l3fr head (fun he => hfh he.symm)]
      exact hh2
    obtain ⟨h4, e4, l4at, l4fr, m4⟩ := writeNext_spec hh3 (some nid)
    refine ⟨h4, ?_, l4at, ?_, fun _ => ?_, ?_, ?_⟩
    · simp only [spliceFront, e1, Option.bind_eq_bind, Option.some_bind, hh1, e2, hh2, hf0, e3, e4]
    · rw [if_neg hfn, l4fr nid hne, l3fr nid (fun he => hfn he.symm)]
      exact hn2
    · rw [l4fr f0 hfh]
      exact l3at
    · intro j hjh hjn hjf
      rw [l4fr j hjh, l3fr j hjf, l2fr j hjn, l1fr j hjn]
    · rw [m4, m3, m2, m1]

/-- Heap-level effect of `evictLast h tl hmap` when the tail sentinel's
`prev` points at a live node `m` carrying a key and value, whose own
`prev` points at a live node `lp`, with `m`, `lp`, `tl` pairwise
distinct. -/
theorem evictLast_spec {h : Heap K V} [DecidableEq K] {tl m lp : Nat}
    {nt nm nlp : Node K V} {ek : K} {ev : V} (hmap : List (K × Nat))
    (ht : hLook h tl = some nt) (htp : nt.prev = some m)
    (hm : hLook h m = some nm) (hkey : nm.key = some ek)
    (hval : nm.value = some ev) (hprev : nm.prev = some lp)
    (hlp : hLook h lp = some nlp)
    (hmtl : m ≠ tl) (hlptl : lp ≠ tl) (hlpm : lp ≠ m) :
    ∃ h7, evictLast h tl hmap = some ((ek, ev), h7, removeA hmap ek) ∧
      hLook h7 tl = some { nt with prev := some lp } ∧
      hLook h7 lp = some { nlp with next := some tl } ∧
      hLook h7 m = none ∧
      (∀ j, j ≠ tl → j ≠ lp → j ≠ m → hLook h7 j = hLook h j) ∧
      h7.map Prod.fst = (h.map Prod.fst).filter (fun j => decide (j ≠ m)) := by
  obtain ⟨h5, e5, l5at, l5fr, m5⟩ := writePrev_spec ht (some lp)
  have hlp5 : hLook h5 lp = some nlp := by
    rw [l5fr lp hlptl]
    exact hlp
  obtain ⟨h6, e6, l6at, l6fr, m6⟩ := writeNext_spec hlp5 (some tl)
  refine ⟨hFree h6 m, ?_, ?_, ?_, ?_, ?_, ?_⟩
  · simp only [evictLast, ht, Option.bind_eq_bind, Option.some_bind, htp, hm, hkey, hval,
      hprev, e5, e6, Option.pure_def]
  · rw [hLook_hFree, if_neg hmtl.symm, l6fr tl (fun he => hlptl he.symm)]
    exact l5at
  · rw [hLook_hFree, if_neg hlpm]
    exact l6at
  · rw [hLook_hFree, if_pos rfl]
  · intro j hjt hjl hjm
    rw [hLook_hFree, if_neg hjm, l6fr j hjl, l5fr j hjt]
  · rw [hFree_map_fst, m6, m5]

end LRU

/-! ## Consequences of the invariant -/

namespace LRU

variable {K V : Type} [DecidableEq K]

/-- Every id in the sentinel-bounded chain is a live heap cell. -/
theorem WF.live {c : LRUCache K V} {order : List (K × Nat)} (hwf : WF c order) (i : Nat)
    (hi : i ∈ c.head :: order.map Prod.snd ++ [c.tail]) :
    ∃ n, hLook c.heap i = some n := by
  have hm : i ∈ c.heap.map Prod.fst := hwf.domain.mem_iff.mpr hi
  exact Option.isSome_iff_exists.mp ((hLook_isSome_iff_mem c.heap i).mpr hm)

/-- The index agrees pointwise with the entry list. -/
theorem WF.lookup_eq {c : LRUCache K V} {order : List (K × Nat)} (hwf : WF c order)
    (k : K) : lookupA c.hashmap k = lookupA order k := by
  cases e : lookupA order k with
  | some i => exact hwf.hmOrder _ (lookupA_some_mem e)
  | none =>
    cases e2 : lookupA c.hashmap k with
    | none => rfl
    | some i =>
      have hm := hwf.hmSub _ (lookupA_some_mem e2)
      rw [e] at hm
      cases hm

/-- A key present in `order` names a live node of the chain. -/
theorem WF.entry_live {c : LRUCache K V} {order : List (K × Nat)} (hwf : WF c order)
    {k : K} {nid : Nat} (ho : lookupA order k = some nid) :
    ∃ n, hLook c.heap nid = some n := by
  have hmem : (k, nid) ∈ order := lookupA_some_mem ho
  have : nid ∈ order.map Prod.snd := List.mem_map_of_mem Prod.snd hmem
  exact hwf.live nid (List.mem_cons_of_mem _ (List.mem_append_left _ this))

/-- The allocator's next identifier is not part of the chain. -/
theorem WF.fresh_not_chain {c : LRUCache K V} {order : List (K × Nat)} (hwf : WF c order) :
    c.fresh ∉ c.head :: order.map Prod.snd ++ [c.tail] := by
  intro hmem
  obtain ⟨m, hm⟩ := hwf.live _ hmem
  exact absurd (hwf.freshBound _ ((hLook_isSome_iff_mem _ _).mp (by rw [hm]; rfl)))
    (lt_irrefl _)

/-- With no live entries the index is empty. -/
theorem WF.hashmap_nil {c : LRUCache K V} (hwf : WF c []) : c.hashmap = [] := by
  cases e : c.hashmap with
  | nil => rfl
  | cons p ps =>
    have h0 := hwf.hmSub p (by rw [e]; simp)
    simp [lookupA] at h0

/-- The freshly constructed cache satisfies the invariant with no
entries. -/
theorem wf_new (cap : Nat) : WF (new cap : LRUCache K V) [] := by
  refine ⟨?_, ?_, ?_, ?_, ?_, ?_, ?_, ?_, ?_, ?_, ?_, ?_, ?_, ?_, ?_⟩ <;>
    simp [new, chainSeg, linked, nxt, prv, keyOf, valOf, hLook]

end LRU

/-! ## Claim theorems: frame property of peek, empty-cache behaviour -/

namespace LRU

variable {K V : Type} [DecidableEq K]

/-- C7: `peek(k)` returns a copy of the stored value when `k` is present
and `none` otherwise, and in both cases it leaves the entire cache state
(ordering, index, count) unchanged, so it never changes the result of a
subsequent `get_first`. -/
theorem peek_spec (c : LRUCache K V) (order : List (K × Nat)) (k : K)
    (hwf : WF c order) :
    (∀ nid v, lookupA order k = some nid → valOf c.heap nid = some v →
        peek k c = some (some v, c)) ∧
    (lookupA order k = none → peek k c = some (none, c)) ∧
    (∀ r c', peek k c = some (r, c') → c' = c ∧ getFirst c' = getFirst c) := by
  refine ⟨?_, ?_, ?_⟩
  · intro nid v ho hv
    have hl : lookupA c.hashmap k = some nid := (hwf.lookup_eq k).trans ho
    obtain ⟨n, hn⟩ := hwf.entry_live ho
    have hval : n.value = some v := by
      unfold valOf at hv
      rw [hn] at hv
      simpa using hv
    simp [peek, hl, hn, hval]
  · intro ho
    have hl : lookupA c.hashmap k = none := (hwf.lookup_eq k).trans ho
    simp [peek, hl]
  · intro r c' hp
    cases e : lookupA c.hashmap k with
    | none =>
      simp only [peek, e, Option.some.injEq, Prod.mk.injEq] at hp
      exact ⟨hp.2.symm, by rw [hp.2]⟩
    | some nid =>
      simp only [peek, e] at hp
      cases hn : hLook c.heap nid with
      | none => rw [hn] at hp; cases hp
      | some n =>
        rw [hn] at hp
        simp only [Option.map_some', Option.some.injEq, Prod.mk.injEq] at hp
        exact ⟨hp.2.symm, by rw [hp.2]⟩

/-- C9: on a cache that satisfies the invariant with no live entries the
head sentinel's `next` is the tail sentinel, whose `value` field is `None`;
`get_first()` and `get_last()` therefore reach `Option::unwrap` on `None`
and panic (modelled as the result `none`) instead of returning a value.
On a nonempty well-formed cache both calls return a value, so the failing
unwrap is reached exactly on the empty cache. -/
theorem getFirst_getLast_empty_spec (c : LRUCache K V) (order : List (K × Nat))
    (hwf : WF c order) :
    (order = [] → nxt c.heap c.head = some c.tail ∧ valOf c.heap c.tail = none ∧
        getFirst c = none ∧ getLast c = none) ∧
    (order ≠ [] → (getFirst c).isSome = true ∧ (getLast c).isSome = true) := by
  constructor
  · rintro rfl
    have hchain : linked c.heap c.head c.tail := hwf.chain
    obtain ⟨nh, hh⟩ := hwf.live c.head (by simp)
    obtain ⟨nt, ht⟩ := hwf.live c.tail (by simp)
    have hhn : nh.next = some c.tail := by
      have := hchain.1
      unfold nxt at this
      rw [hh] at this
      simpa using this
    have htp : nt.prev = some c.head := by
      have := hchain.2
      unfold prv at this
      rw [ht] at this
      simpa using this
    have htv : nt.value = none := by
      have := hwf.tailVal
      unfold valOf at this
      rw [ht] at this
      simpa using this
    have hhv : nh.value = none := by
      have := hwf.headVal
      unfold valOf at this
      rw [hh] at this
      simpa using this
    refine ⟨hwf.chain.1, hwf.tailVal, ?_, ?_⟩
    · simp [getFirst, hh, hhn, ht, htv]
    · simp [getLast, ht, htp, hh, hhv]
  · intro hne
    obtain ⟨nh, hh⟩ := hwf.live c.head (by simp)
    obtain ⟨nt, ht⟩ := hwf.live c.tail (by simp)
    constructor
    · obtain ⟨p, rest, rfl⟩ : ∃ p rest, order = p :: rest := by
        cases order with
        | nil => exact absurd rfl hne
        | cons p rest => exact ⟨p, rest, rfl⟩
      have hlink : linked c.heap c.head p.2 := hwf.chain.1
      have hhn : nh.next = some p.2 := by
        have := hlink.1
        unfold nxt at this
        rw [hh] at this
        simpa using this
      have hlook : lookupA (p :: rest) p.1 = some p.2 := by
        simp [lookupA]
      obtain ⟨n, hn⟩ := hwf.entry_live hlook
      have hv : n.value.isSome = true := by
        have := hwf.entriesVal p (by simp)
        unfold valOf at this
        rw [hn] at this
        simpa using this
      obtain ⟨v, hv2⟩ := Option.isSome_iff_exists.mp hv
      simp [getFirst, hh, hhn, hn, hv2]
    · obtain ⟨front, q, rfl⟩ : ∃ front q, order = front ++ [q] := by
        rcases List.eq_nil_or_concat order with h0 | ⟨front, q, h⟩
        · exact absurd h0 hne
        · exact ⟨front, q, by simpa using h⟩
      have hchain : chainSeg c.heap c.head (front.map Prod.snd ++ q.2 :: []) c.tail := by
        have := hwf.chain
        simpa using this
      have hlink : linked c.heap q.2 c.tail :=
        ((chainSeg_append c.heap c.head q.2 c.tail (front.map Prod.snd) []).mp hchain).2
      have htp : nt.prev = some q.2 := by
        have := hlink.2
        unfold prv at this
        rw [ht] at this
        simpa using this
      obtain ⟨n, hn⟩ := hwf.entry_live
        (show lookupA (front ++ [q]) q.1 = some q.2 from
          mem_lookupA_of_nodup hwf.nodupKeys (by simp))
      have hv : n.value.isSome = true := by
        have := hwf.entriesVal q (by simp)
        unfold valOf at this
        rw [hn] at this
        simpa using this
      obtain ⟨v, hv2⟩ := Option.isSome_iff_exists.mp hv
      simp [getLast, ht, htp, hn, hv2]

/-- Shared computation for `add` on a key that is not present: allocating
the fresh node and splicing it in behind the head sentinel succeeds, and
the resulting heap is the old chain with the fresh node in front. -/
theorem addNew_splice {c : LRUCache K V} {order : List (K × Nat)}
    (hwf : WF c order) (k : K) (v : V) :
    ∃ h4 nh nf,
      spliceFront (c.heap ++ [(c.fresh, ⟨some k, some v, none, none⟩)]) c.head c.fresh
        = some h4 ∧
      hLook c.heap c.head = some nh ∧
      hLook c.heap ((order.map Prod.snd).headD c.tail) = some nf ∧
      hLook h4 c.head = some { nh with next := some c.fresh } ∧
      hLook h4 c.fresh = some ⟨some k, some v, some c.head,
        some ((order.map Prod.snd).headD c.tail)⟩ ∧
      hLook h4 ((order.map Prod.snd).headD c.tail)
        = some { nf with prev := some c.fresh } ∧
      (∀ j, j ≠ c.head → j ≠ c.fresh → j ≠ (order.map Prod.snd).headD c.tail →
        hLook h4 j = hLook c.heap j) ∧
      h4.map Prod.fst = c.heap.map Prod.fst ++ [c.fresh] ∧
      chainSeg h4 c.head (c.fresh :: order.map Prod.snd) c.tail ∧
      c.head ≠ c.fresh ∧ c.tail ≠ c.fresh ∧
      (order.map Prod.snd).headD c.tail ≠ c.fresh ∧
      (order.map Prod.snd).headD c.tail ≠ c.head ∧
      (∀ j, j ≠ c.fresh → keyOf h4 j = keyOf c.heap j) ∧
      (∀ j, j ≠ c.fresh → valOf h4 j = valOf c.heap j) ∧
      (∀ j, j ≠ c.head → j ≠ c.fresh → nxt h4 j = nxt c.heap j) ∧
      (∀ j, j ≠ (order.map Prod.snd).headD c.tail → j ≠ c.fresh →
        prv h4 j = prv c.heap j) ∧
      (h4.map Prod.fst).Perm (c.head :: (c.fresh :: order.map Prod.snd) ++ [c.tail]) ∧
      (c.head :: (c.fresh :: order.map Prod.snd) ++ [c.tail]).Nodup := by
  set f0 := (order.map Prod.snd).headD c.tail with hf0_def
  have hmemlt : ∀ j, (hLook c.heap j).isSome = true → j < c.fresh := fun j hj =>
    hwf.freshBound j ((hLook_isSome_iff_mem _ _).mp hj)
  obtain ⟨nh, hh⟩ := hwf.live c.head (by simp)
  have hheadlt : c.head < c.fresh := hmemlt _ (by rw [hh]; rfl)
  obtain ⟨nt, ht⟩ := hwf.live c.tail (by simp)
  have htaillt : c.tail < c.fresh := hmemlt _ (by rw [ht]; rfl)
  have hf0mem : f0 ∈ c.head :: order.map Prod.snd ++ [c.tail] := by
    rcases List.mem_append.mp (headD_mem_append (order.map Prod.snd) c.tail) with h1 | h1
    · exact List.mem_cons_of_mem _ (List.mem_append_left _ h1)
    · exact List.mem_cons_of_mem _ (List.mem_append_right _ h1)
  obtain ⟨nf, hf⟩ := hwf.live f0 hf0mem
  have hf0lt : f0 < c.fresh := hmemlt _ (by rw [hf]; rfl)
  have hf0head : f0 ≠ c.head := by
    intro he
    have h1 : f0 ∈ order.map Prod.snd ++ [c.tail] :=
      headD_mem_append (order.map Prod.snd) c.tail
    rw [he] at h1
    have h2 := hwf.nodupIds
    rcases List.mem_append.mp h1 with h3 | h3
    · exact (nodup_chain_facts h2).1 h3
    · exact (nodup_chain_facts h2).2.2.1 (List.mem_singleton.mp h3)
  have hfresh_dead : hLook c.heap c.fresh = none := by
    cases e : hLook c.heap c.fresh with
    | none => rfl
    | some m =>
      have h0 := hmemlt c.fresh (by rw [e]; rfl)
      exact absurd h0 (lt_irrefl _)
  have hnew : hLook (c.heap ++ [(c.fresh, ⟨some k, some v, none, none⟩)]) c.fresh
      = some ⟨some k, some v, none, none⟩ := hLook_append_self _ hfresh_dead
  have happ : ∀ j, j ≠ c.fresh →
      hLook (c.heap ++ [(c.fresh, ⟨some k, some v, none, none⟩)]) j = hLook c.heap j :=
    fun j hj => hLook_append_ne _ hj
  have hh0 : hLook (c.heap ++ [(c.fresh, ⟨some k, some v, none, none⟩)]) c.head = some nh := by
    rw [happ _ (Nat.ne_of_lt hheadlt)]
    exact hh
  have hf00 : hLook (c.heap ++ [(c.fresh, ⟨some k, some v, none, none⟩)]) f0 = some nf := by
    rw [happ _ (Nat.ne_of_lt hf0lt)]
    exact hf
  have hnh_next : nh.next = some f0 := by
    have h0 := (chainSeg_headD hwf.chain).1
    unfold nxt at h0
    rw [hh] at h0
    simpa [hf0_def] using h0
  obtain ⟨h4, esf, h4head, h4nid, h4f0, h4fr, m4⟩ :=
    spliceFront_spec hnew hh0 (fun he => Nat.ne_of_lt hheadlt he.symm) hnh_next hf00 hf0head
  have hf0fresh : f0 ≠ c.fresh := Nat.ne_of_lt hf0lt
  rw [if_neg hf0fresh] at h4nid
  have h4f0' : hLook h4 f0 = some { nf with prev := some c.fresh } := h4f0 hf0fresh
  have h4frame : ∀ j, j ≠ c.head → j ≠ c.fresh → j ≠ f0 → hLook h4 j = hLook c.heap j := by
    intro j h1 h2 h3
    rw [h4fr j h1 h2 h3, happ j h2]
  have hm4 : h4.map Prod.fst = c.heap.map Prod.fst ++ [c.fresh] := by
    rw [m4, List.map_append]
    rfl
  have hfreshchain : c.fresh ∉ c.head :: order.map Prod.snd ++ [c.tail] := by
    intro hmem
    obtain ⟨m, hm⟩ := hwf.live c.fresh hmem
    exact absurd (hmemlt c.fresh (by rw [hm]; rfl)) (lt_irrefl _)
  have hchain0 : chainSeg (c.heap ++ [(c.fresh, ⟨some k, some v, none, none⟩)]) c.head
      (order.map Prod.snd) c.tail := by
    refine chainSeg_congr ?_ ?_ hwf.chain
    · intro i hi
      have hilive : (hLook c.heap i).isSome = true := by
        obtain ⟨m, hm⟩ := hwf.live i (by
          rcases List.mem_cons.mp hi with h1 | h1
          · simp [h1]
          · exact List.mem_cons_of_mem _ (List.mem_append_left _ h1))
        rw [hm]
        rfl
      unfold nxt
      rw [happ i (Nat.ne_of_lt (hmemlt i hilive))]
    · intro i hi
      have hilive : (hLook c.heap i).isSome = true := by
        obtain ⟨m, hm⟩ := hwf.live i (by
          rcases List.mem_append.mp hi with h1 | h1
          · exact List.mem_cons_of_mem _ (List.mem_append_left _ h1)
          · exact List.mem_cons_of_mem _ (List.mem_append_right _ h1))
        rw [hm]
        rfl
      unfold prv
      rw [happ i (Nat.ne_of_lt (hmemlt i hilive))]
  have hchain4 : chainSeg h4 c.head (c.fresh :: order.map Prod.snd) c.tail := by
    refine splice_chain hchain0 hwf.nodupIds hfreshchain ?_ ?_ ?_ ?_ ?_ ?_
    · unfold nxt
      rw [h4head]
      rfl
    · unfold prv
      rw [h4nid]
      rfl
    · unfold nxt
      rw [h4nid]
      rfl
    · unfold prv
      rw [h4f0']
      rfl
    · intro i hih hif
      by_cases hf0i : i = f0
      · subst hf0i
        unfold nxt
        rw [h4f0', hf00]
        rfl
      · unfold nxt
        rw [h4fr i hih hif hf0i]
    · intro i hif hin
      by_cases hih : i = c.head
      · subst hih
        unfold prv
        rw [h4head, hh0]
        rfl
      · unfold prv
        rw [h4fr i hih hin hif]
  have hkeyOf4 : ∀ j, j ≠ c.fresh → keyOf h4 j = keyOf c.heap j := by
    intro j hj
    unfold keyOf
    by_cases h1 : j = c.head
    · subst h1
      rw [h4head, hh]
      rfl
    · by_cases h2 : j = f0
      · subst h2
        rw [h4f0', hf]
        rfl
      · rw [h4frame j h1 hj h2]
  have hvalOf4 : ∀ j, j ≠ c.fresh → valOf h4 j = valOf c.heap j := by
    intro j hj
    unfold valOf
    by_cases h1 : j = c.head
    · subst h1
      rw [h4head, hh]
      rfl
    · by_cases h2 : j = f0
      · subst h2
        rw [h4f0', hf]
        rfl
      · rw [h4frame j h1 hj h2]
  have hnxtOf4 : ∀ j, j ≠ c.head → j ≠ c.fresh → nxt h4 j = nxt c.heap j := by
    intro j h1 h2
    unfold nxt
    by_cases h3 : j = f0
    · subst h3
      rw [h4f0', hf]
      rfl
    · rw [h4frame j h1 h2 h3]
  have hprvOf4 : ∀ j, j ≠ f0 → j ≠ c.fresh → prv h4 j = prv c.heap j := by
    intro j h1 h2
    unfold prv
    by_cases h3 : j = c.head
    · subst h3
      rw [h4head, hh]
      rfl
    · rw [h4frame j h3 h2 h1]
  have hfreshchain := hwf.fresh_not_chain
  have hperm4 : (h4.map Prod.fst).Perm
      (c.head :: (c.fresh :: order.map Prod.snd) ++ [c.tail]) := by
    rw [hm4]
    refine (hwf.domain.append_right [c.fresh]).trans ?_
    refine (List.perm_append_singleton c.fresh _).trans ?_
    exact List.Perm.swap c.head c.fresh (order.map Prod.snd ++ [c.tail])
  have hnodup4 : (c.head :: (c.fresh :: order.map Prod.snd) ++ [c.tail]).Nodup := by
    have hnodupapp : ((c.head :: order.map Prod.snd ++ [c.tail]) ++ [c.fresh]).Nodup := by
      rw [List.nodup_append]
      refine ⟨hwf.nodupIds, by simp, ?_⟩
      intro a ha hb
      rw [List.mem_singleton.mp hb] at ha
      exact hfreshchain ha
    have hpermstep : ((c.head :: order.map Prod.snd ++ [c.tail]) ++ [c.fresh]).Perm
        (c.head :: (c.fresh :: order.map Prod.snd) ++ [c.tail]) := by
      refine (List.perm_append_singleton c.fresh _).trans ?_
      exact List.Perm.swap c.head c.fresh (order.map Prod.snd ++ [c.tail])
    exact hpermstep.nodup_iff.mp hnodupapp
  exact ⟨h4, nh, nf, esf, hh, hf, h4head, h4nid, h4f0', h4frame, hm4, hchain4,
    Nat.ne_of_lt hheadlt, Nat.ne_of_lt htaillt, hf0fresh, hf0head,
    hkeyOf4, hvalOf4, hnxtOf4, hprvOf4, hperm4, hnodup4⟩

/-- `add` of a new key with room left: no eviction, the new entry becomes
most recently used, the index gains the key, and `len` is incremented. -/
theorem add_new_noevict (c : LRUCache K V) (order : List (K × Nat)) (k : K) (v : V)
    (hwf : WF c order) (ho : lookupA order k = none) (hno : ¬ c.len + 1 > c.cap) :
    ∃ c', add k v c = some (none, c') ∧ WF c' ((k, c.fresh) :: order) ∧
      c'.hashmap = insertA c.hashmap k c.fresh ∧ c'.len = c.len + 1 ∧
      c'.cap = c.cap ∧ c'.head = c.head ∧ c'.tail = c.tail ∧
      c'.fresh = c.fresh + 1 ∧ valOf c'.heap c.fresh = some v := by
  obtain ⟨h4, nh, nf, esf, hh, hf, h4head, h4nid, h4f0, h4fr, hm4, hchain4,
    hhf, htf, hf0f, hf0h, hkeyOf4, hvalOf4, hnxtOf4, hprvOf4, hperm4, hnodup4⟩ :=
    addNew_splice hwf k v
  have hl : lookupA c.hashmap k = none := by
    rw [hwf.lookup_eq]
    exact ho
  have hknotin : k ∉ order.map Prod.fst := lookupA_eq_none.mp ho
  have hfreshchain := hwf.fresh_not_chain
  refine ⟨⟨insertA c.hashmap k c.fresh, c.cap, c.len + 1, c.head, c.tail, h4, c.fresh + 1⟩,
    ?_, ?_, rfl, rfl, rfl, rfl, rfl, rfl, ?_⟩
  · simp only [add, hl, Option.bind_eq_bind, Option.some_bind, esf, if_neg hno,
      Option.pure_def]
  · refine { chain := ?_, domain := ?_, nodupIds := ?_, nodupKeys := ?_,
             entriesKey := ?_, entriesVal := ?_, hmOrder := ?_, hmSub := ?_,
             headKey := ?_, headVal := ?_, headPrev := ?_, tailKey := ?_,
             tailVal := ?_, tailNext := ?_, freshBound := ?_ }
    · show chainSeg h4 c.head (((k, c.fresh) :: order).map Prod.snd) c.tail
      rw [List.map_cons]
      exact hchain4
    · show (h4.map Prod.fst).Perm
        (c.head :: ((k, c.fresh) :: order).map Prod.snd ++ [c.tail])
      rw [List.map_cons]
      exact hperm4
    · show (c.head :: ((k, c.fresh) :: order).map Prod.snd ++ [c.tail]).Nodup
      rw [List.map_cons]
      exact hnodup4
    · show (((k, c.fresh) :: order).map Prod.fst).Nodup
      rw [List.map_cons]
      exact List.nodup_cons.mpr ⟨hknotin, hwf.nodupKeys⟩
    · intro p' hp'
      show keyOf h4 p'.2 = some p'.1
      rcases List.mem_cons.mp hp' with h1 | h1
      · subst h1
        unfold keyOf
        rw [h4nid]
        rfl
      · have hne : p'.2 ≠ c.fresh := by
          intro he
          exact hfreshchain (List.mem_cons_of_mem _ (List.mem_append_left _
            (he ▸ List.mem_map_of_mem Prod.snd h1)))
        rw [hkeyOf4 p'.2 hne]
        exact hwf.entriesKey p' h1
    · intro p' hp'
      show (valOf h4 p'.2).isSome = true
      rcases List.mem_cons.mp hp' with h1 | h1
      · subst h1
        unfold valOf
        rw [h4nid]
        rfl
      · have hne : p'.2 ≠ c.fresh := by
          intro he
          exact hfreshchain (List.mem_cons_of_mem _ (List.mem_append_left _
            (he ▸ List.mem_map_of_mem Prod.snd h1)))
        rw [hvalOf4 p'.2 hne]
        exact hwf.entriesVal p' h1
    · intro p' hp'
      show lookupA (insertA c.hashmap k c.fresh) p'.1 = some p'.2
      rcases List.mem_cons.mp hp' with h1 | h1
      · subst h1
        exact lookupA_insertA_self c.hashmap k c.fresh
      · have hne : ¬ p'.1 = k := by
          intro he
          exact hknotin (he ▸ List.mem_map_of_mem Prod.fst h1)
        rw [lookupA_insertA_ne hne]
        exact hwf.hmOrder p' h1
    · intro p' hp'
      show lookupA ((k, c.fresh) :: order) p'.1 = some p'.2
      rcases List.mem_cons.mp hp' with h1 | h1
      · subst h1
        simp [lookupA]
      · obtain ⟨hmem, hne⟩ := mem_removeA h1
        have h0 := hwf.hmSub p' hmem
        have hkp : ¬ k = p'.1 := fun he => hne he.symm
        simp [lookupA, hkp, h0]
    · show keyOf h4 c.head = none
      rw [hkeyOf4 c.head hhf]
      exact hwf.headKey
    · show valOf h4 c.head = none
      rw [hvalOf4 c.head hhf]
      exact hwf.headVal
    · show prv h4 c.head = none
      have hnhprev : nh.prev = none := by
        have h0 := hwf.headPrev
        unfold prv at h0
        rw [hh] at h0
        simpa using h0
      unfold prv
      rw [h4head]
      simpa using hnhprev
    · show keyOf h4 c.tail = none
      rw [hkeyOf4 c.tail htf]
      exact hwf.tailKey
    · show valOf h4 c.tail = none
      rw [hvalOf4 c.tail htf]
      exact hwf.tailVal
    · show nxt h4 c.tail = none
      rw [hnxtOf4 c.tail (fun he => (nodup_chain_facts hwf.nodupIds).2.2.1 he.symm) htf]
      exact hwf.tailNext
    · intro i hi
      show i < c.fresh + 1
      rw [hm4] at hi
      rcases List.mem_append.mp hi with h1 | h1
      · exact Nat.lt_trans (hwf.freshBound i h1) (Nat.lt_succ_self _)
      · rw [List.mem_singleton.mp h1]
        exact Nat.lt_succ_self _
  · show valOf h4 c.fresh = some v
    unfold valOf
    rw [h4nid]
    rfl

/-- `add` of a new key over capacity with at least one live entry: the
least-recently-used entry (the one before the tail sentinel) is unlinked,
dropped from the index, freed and returned, while the new entry becomes
most recently used.  `len` ends up incremented (the source never
decrements it on eviction). -/
theorem add_new_evict (c : LRUCache K V) (front : List (K × Nat)) (lk : K) (lid : Nat)
    (k : K) (v : V) (hwf : WF c (front ++ [(lk, lid)]))
    (ho : lookupA (front ++ [(lk, lid)]) k = none)
    (hyes : c.len + 1 > c.cap) :
    ∃ lv c', valOf c.heap lid = some lv ∧
      add k v c = some (some (lk, lv), c') ∧ WF c' ((k, c.fresh) :: front) ∧
      c'.hashmap = removeA (insertA c.hashmap k c.fresh) lk ∧
      c'.len = c.len + 1 ∧ c'.cap = c.cap ∧ c'.head = c.head ∧ c'.tail = c.tail ∧
      c'.fresh = c.fresh + 1 ∧ valOf c'.heap c.fresh = some v := by
  obtain ⟨h4, nh, nf, esf, hh, hf, h4head, h4nid, h4f0, h4fr, hm4, hchain4,
    hhf, htf, hf0f, hf0h, hkeyOf4, hvalOf4, hnxtOf4, hprvOf4, hperm4, hnodup4⟩ :=
    addNew_splice hwf k v
  have hl : lookupA c.hashmap k = none := by
    rw [hwf.lookup_eq]
    exact ho
  have hknotin : k ∉ (front ++ [(lk, lid)]).map Prod.fst := lookupA_eq_none.mp ho
  have hfreshchain := hwf.fresh_not_chain
  set ms := front.map Prod.snd with hms_def
  have hmap : (front ++ [(lk, lid)]).map Prod.snd = ms ++ [lid] := by
    simp [hms_def]
  have hchain4' : chainSeg h4 c.head ((c.fresh :: ms) ++ lid :: []) c.tail := by
    have h0 := hchain4
    rw [hmap] at h0
    exact h0
  have hnodup4' : (c.head :: ((c.fresh :: ms) ++ lid :: []) ++ [c.tail]).Nodup := by
    have h0 := hnodup4
    rw [hmap] at h0
    exact h0
  obtain ⟨nd1, hmA, hmB, ndB, hdisj⟩ := nodup_split3 hnodup4'
  obtain ⟨hseg1, hseg2⟩ :=
    (chainSeg_append h4 c.head lid c.tail (c.fresh :: ms) []).mp hchain4'
  set lp := ms.getLastD c.fresh with hlp_def
  have hlinklp : linked h4 lp lid := by
    have h0 := chainSeg_lastD hseg1
    rw [List.getLastD_cons] at h0
    exact h0
  have hlinktl : linked h4 lid c.tail := hseg2
  have live4 : ∀ j, j ∈ c.head :: (c.fresh :: ms ++ [lid]) ++ [c.tail] →
      ∃ n, hLook h4 j = some n := by
    intro j hj
    have hjm : j ∈ h4.map Prod.fst := by
      refine hperm4.mem_iff.mpr ?_
      rw [hmap]
      exact hj
    exact Option.isSome_iff_exists.mp ((hLook_isSome_iff_mem h4 j).mpr hjm)
  have hlidfresh : lid ≠ c.fresh := fun he => hmA (by rw [he]; simp)
  have hlidtl : lid ≠ c.tail := fun he => hmB (by rw [he]; simp)
  have hlpmem : lp ∈ c.head :: c.fresh :: ms :=
    List.mem_cons_of_mem c.head (getLastD_mem_cons ms c.fresh)
  have hlptl : lp ≠ c.tail := fun he => hdisj lp hlpmem (by rw [he]; simp)
  have hlplid : lp ≠ lid := fun he => hmA (he ▸ hlpmem)
  have hheadlid : c.head ≠ lid := fun he => hmA (by rw [← he]; simp)
  have hheadtl : c.head ≠ c.tail := fun he => hdisj c.head (by simp) (by rw [he]; simp)
  have htllid : c.tail ≠ lid := fun he => hmB (by rw [← he]; simp)
  obtain ⟨nt4, ht4⟩ := live4 c.tail (by simp)
  have htp : nt4.prev = some lid := by
    have h0 := hlinktl.2
    unfold prv at h0
    rw [ht4] at h0
    simpa using h0
  obtain ⟨nm4, hmlook⟩ := live4 lid (by simp)
  obtain ⟨nlp4, hlplook⟩ := live4 lp (by
    rcases List.mem_cons.mp hlpmem with h1 | h1
    · simp [h1]
    · rcases List.mem_cons.mp h1 with h2 | h2
      · simp [h2]
      · simp [h2])
  have hkeylid : nm4.key = some lk := by
    have h0 : keyOf h4 lid = some lk := by
      rw [hkeyOf4 lid hlidfresh]
      exact hwf.entriesKey (lk, lid) (List.mem_append_right front (by simp))
    unfold keyOf at h0
    rw [hmlook] at h0
    simpa using h0
  obtain ⟨lv, hlv0⟩ := Option.isSome_iff_exists.mp
    (hwf.entriesVal (lk, lid) (List.mem_append_right front (by simp)))
  have hlv : valOf c.heap lid = some lv := hlv0
  have hvallid : nm4.value = some lv := by
    have h0 : valOf h4 lid = some lv := by
      rw [hvalOf4 lid hlidfresh]
      exact hlv
    unfold valOf at h0
    rw [hmlook] at h0
    simpa using h0
  have hprevlid : nm4.prev = some lp := by
    have h0 := hlinklp.2
    unfold prv at h0
    rw [hmlook] at h0
    simpa using h0
  obtain ⟨h7, e7, l7tl, l7lp, l7lid, l7fr, m7⟩ :=
    evictLast_spec (insertA c.hashmap k c.fresh) ht4 htp hmlook hkeylid hvallid hprevlid
      hlplook hlidtl hlptl hlplid
  have hkeyOf7 : ∀ j, j ≠ lid → keyOf h7 j = keyOf h4 j := by
    intro j hj
    unfold keyOf
    by_cases h1 : j = c.tail
    · subst h1
      rw [l7tl, ht4]
      rfl
    · by_cases h2 : j = lp
      · subst h2
        rw [l7lp, hlplook]
        rfl
      · rw [l7fr j h1 h2 hj]
  have hvalOf7 : ∀ j, j ≠ lid → valOf h7 j = valOf h4 j := by
    intro j hj
    unfold valOf
    by_cases h1 : j = c.tail
    · subst h1
      rw [l7tl, ht4]
      rfl
    · by_cases h2 : j = lp
      · subst h2
        rw [l7lp, hlplook]
        rfl
      · rw [l7fr j h1 h2 hj]
  have hnxtOf7 : ∀ j, j ≠ lp → j ≠ lid → nxt h7 j = nxt h4 j := by
    intro j h2 hj
    unfold nxt
    by_cases h1 : j = c.tail
    · subst h1
      rw [l7tl, ht4]
      rfl
    · rw [l7fr j h1 h2 hj]
  have hprvOf7 : ∀ j, j ≠ c.tail → j ≠ lid → prv h7 j = prv h4 j := by
    intro j h1 hj
    unfold prv
    by_cases h2 : j = lp
    · subst h2
      rw [l7lp, hlplook]
      rfl
    · rw [l7fr j h1 h2 hj]
  have hnxtlp7 : nxt h7 lp = some c.tail := by
    unfold nxt
    rw [l7lp]
    rfl
  have hprvtl7 : prv h7 c.tail = some lp := by
    unfold prv
    rw [l7tl]
    rfl
  have hchain7 : chainSeg h7 c.head ((c.fresh :: ms) ++ []) c.tail := by
    refine unlink_chain hchain4' hnodup4' ?_ ?_ ?_ ?_
    · rw [List.getLastD_cons]
      exact hnxtlp7
    · rw [List.getLastD_cons]
      exact hprvtl7
    · intro i h1 h2
      rw [List.getLastD_cons] at h1
      exact hnxtOf7 i h1 h2
    · intro i h1 h2
      exact hprvOf7 i h1 h2
  rw [List.append_nil] at hchain7
  have hfreshtl : c.fresh ≠ c.tail := fun he => htf he.symm
  have h7fresh : ∃ nx, hLook h7 c.fresh = some ⟨some k, some v, some c.head, nx⟩ := by
    by_cases hlpf : lp = c.fresh
    · refine ⟨some c.tail, ?_⟩
      have h2 := hlplook
      rw [hlpf, h4nid] at h2
      have h3 := Option.some_inj.mp h2
      rw [← hlpf, l7lp, ← h3]
    · refine ⟨some (((front ++ [(lk, lid)]).map Prod.snd).headD c.tail), ?_⟩
      rw [l7fr c.fresh hfreshtl (fun he => hlpf he.symm) (fun he => hlidfresh he.symm)]
      exact h4nid
  obtain ⟨fnx, h7freshlook⟩ := h7fresh
  have hkeyfresh7 : keyOf h7 c.fresh = some k := by
    unfold keyOf
    rw [h7freshlook]
    rfl
  have hvalfresh7 : valOf h7 c.fresh = some v := by
    unfold valOf
    rw [h7freshlook]
    rfl
  have hfrontkeys : (front.map Prod.fst).Nodup ∧ lk ∉ front.map Prod.fst := by
    have h0 := hwf.nodupKeys
    rw [List.map_append, List.nodup_append] at h0
    exact ⟨h0.1, fun hmem => h0.2.2 hmem (by simp)⟩
  have hkfront : k ∉ front.map Prod.fst := fun hmem =>
    hknotin (by rw [List.map_append]; exact List.mem_append_left _ hmem)
  have hklk : ¬ k = lk := fun he => hknotin (by rw [List.map_append, he]; simp)
  have hfil : ((c.head :: (c.fresh :: (front ++ [(lk, lid)]).map Prod.snd) ++ [c.tail]).filter
      (fun j => decide (j ≠ lid))) = c.head :: (c.fresh :: ms) ++ [c.tail] := by
    rw [hmap]
    have hshape : (c.head :: (c.fresh :: (ms ++ [lid])) ++ [c.tail] : List Nat)
        = (c.head :: c.fresh :: ms) ++ lid :: ([] ++ [c.tail]) := by simp
    rw [hshape, List.filter_append, filter_ne_of_not_mem hmA, List.filter_cons]
    rw [if_neg (by simp)]
    rw [filter_ne_of_not_mem hmB]
    simp
  refine ⟨lv, ⟨removeA (insertA c.hashmap k c.fresh) lk, c.cap, c.len + 1, c.head, c.tail,
    h7, c.fresh + 1⟩, hlv, ?_, ?_, rfl, rfl, rfl, rfl, rfl, rfl, hvalfresh7⟩
  · simp only [add, hl, Option.bind_eq_bind, Option.some_bind, esf, if_pos hyes, e7,
      Option.pure_def]
  · refine { chain := ?_, domain := ?_, nodupIds := ?_, nodupKeys := ?_,
             entriesKey := ?_, entriesVal := ?_, hmOrder := ?_, hmSub := ?_,
             headKey := ?_, headVal := ?_, headPrev := ?_, tailKey := ?_,
             tailVal := ?_, tailNext := ?_, freshBound := ?_ }
    · show chainSeg h7 c.head (((k, c.fresh) :: front).map Prod.snd) c.tail
      rw [List.map_cons]
      exact hchain7
    · show (h7.map Prod.fst).Perm
        (c.head :: ((k, c.fresh) :: front).map Prod.snd ++ [c.tail])
      rw [List.map_cons, m7]
      have hperm := hperm4.filter (fun j => decide (j ≠ lid))
      rw [hfil] at hperm
      exact hperm
    · show (c.head :: ((k, c.fresh) :: front).map Prod.snd ++ [c.tail]).Nodup
      rw [List.map_cons, ← hfil]
      exact hnodup4.filter _
    · show (((k, c.fresh) :: front).map Prod.fst).Nodup
      rw [List.map_cons]
      exact List.nodup_cons.mpr ⟨hkfront, hfrontkeys.1⟩
    · intro p hp
      rcases List.mem_cons.mp hp with h1 | h1
      · subst h1
        show keyOf h7 c.fresh = some k
        exact hkeyfresh7
      · show keyOf h7 p.2 = some p.1
        have hpfresh : p.2 ≠ c.fresh := fun he =>
          hfreshchain (List.mem_cons_of_mem _ (List.mem_append_left _ (by
            rw [List.map_append]
            exact List.mem_append_left _ (he ▸ List.mem_map_of_mem Prod.snd h1))))
        have hplid : p.2 ≠ lid := fun he =>
          hmA (List.mem_cons_of_mem _ (List.mem_cons_of_mem _
            (he ▸ List.mem_map_of_mem Prod.snd h1)))
        rw [hkeyOf7 p.2 hplid, hkeyOf4 p.2 hpfresh]
        exact hwf.entriesKey p (List.mem_append_left _ h1)
    · intro p hp
      rcases List.mem_cons.mp hp with h1 | h1
      · subst h1
        show (valOf h7 c.fresh).isSome = true
        rw [hvalfresh7]
        rfl
      · show (valOf h7 p.2).isSome = true
        have hpfresh : p.2 ≠ c.fresh := fun he =>
          hfreshchain (List.mem_cons_of_mem _ (List.mem_append_left _ (by
            rw [List.map_append]
            exact List.mem_append_left _ (he ▸ List.mem_map_of_mem Prod.snd h1))))
        have hplid : p.2 ≠ lid := fun he =>
          hmA (List.mem_cons_of_mem _ (List.mem_cons_of_mem _
            (he ▸ List.mem_map_of_mem Prod.snd h1)))
        rw [hvalOf7 p.2 hplid, hvalOf4 p.2 hpfresh]
        exact hwf.entriesVal p (List.mem_append_left _ h1)
    · intro p hp
      rcases List.mem_cons.mp hp with h1 | h1
      · subst h1
        show lookupA (removeA (insertA c.hashmap k c.fresh) lk) k = some c.fresh
        rw [lookupA_removeA_ne hklk]
        exact lookupA_insertA_self c.hashmap k c.fresh
      · show lookupA (removeA (insertA c.hashmap k c.fresh) lk) p.1 = some p.2
        have hp1lk : ¬ p.1 = lk := fun he =>
          hfrontkeys.2 (he ▸ List.mem_map_of_mem Prod.fst h1)
        have hp1k : ¬ p.1 = k := fun he =>
          hkfront (he ▸ List.mem_map_of_mem Prod.fst h1)
        rw [lookupA_removeA_ne hp1lk, lookupA_insertA_ne hp1k]
        exact hwf.hmOrder p (List.mem_append_left _ h1)
    · intro p hp
      obtain ⟨hmem1, hplk⟩ := mem_removeA hp
      unfold insertA at hmem1
      show lookupA ((k, c.fresh) :: front) p.1 = some p.2
      rcases List.mem_cons.mp hmem1 with h1 | h1
      · subst h1
        simp [lookupA]
      · obtain ⟨hmem2, hpk⟩ := mem_removeA h1
        have h0 := hwf.hmSub p hmem2
        have h0' : lookupA front p.1 = some p.2 := by
          cases e : lookupA front p.1 with
          | some j =>
            rw [lookupA_append_of_some e] at h0
            exact h0
          | none =>
            rw [lookupA_append_of_none e] at h0
            exfalso
            simp only [lookupA] at h0
            rw [if_neg (fun he => hplk he.symm)] at h0
            cases h0
        simp only [lookupA]
        rw [if_neg (fun he => hpk he.symm)]
        exact h0'
    · show keyOf h7 c.head = none
      rw [hkeyOf7 c.head hheadlid, hkeyOf4 c.head hhf]
      exact hwf.headKey
    · show valOf h7 c.head = none
      rw [hvalOf7 c.head hheadlid, hvalOf4 c.head hhf]
      exact hwf.headVal
    · show prv h7 c.head = none
      rw [hprvOf7 c.head hheadtl hheadlid, hprvOf4 c.head (fun he => hf0h he.symm) hhf]
      exact hwf.headPrev
    · show keyOf h7 c.tail = none
      rw [hkeyOf7 c.tail htllid, hkeyOf4 c.tail htf]
      exact hwf.tailKey
    · show valOf h7 c.tail = none
      rw [hvalOf7 c.tail htllid, hvalOf4 c.tail htf]
      exact hwf.tailVal
    · show nxt h7 c.tail = none
      rw [hnxtOf7 c.tail (fun he => hlptl he.symm) htllid,
          hnxtOf4 c.tail (fun he => hheadtl he.symm) htf]
      exact hwf.tailNext
    · intro i hi
      show i < c.fresh + 1
      rw [m7] at hi
      have hi2 : i ∈ h4.map Prod.fst := List.mem_of_mem_filter hi
      rw [hm4] at hi2
      rcases List.mem_append.mp hi2 with h1 | h1
      · exact Nat.lt_trans (hwf.freshBound i h1) (Nat.lt_succ_self _)
      · rw [List.mem_singleton.mp h1]
        exact Nat.lt_succ_self _

/-- `add` of a new key into an over-capacity cache with no live entries
(in particular any cache of capacity 0): the freshly inserted node is
itself the node before the tail sentinel, so it is immediately evicted and
the pair `(k, v)` is returned; the cache ends with no live entries. -/
theorem add_empty_evict (c : LRUCache K V) (k : K) (v : V) (hwf : WF c [])
    (hyes : c.len + 1 > c.cap) :
    ∃ c', add k v c = some (some (k, v), c') ∧ WF c' [] ∧ c'.hashmap = [] ∧
      c'.cap = c.cap ∧ c'.fresh = c.fresh + 1 ∧ c'.len = c.len + 1 ∧
      c'.head = c.head ∧ c'.tail = c.tail := by
  obtain ⟨h4, nh, nf, esf, hh, hf, h4head, h4nid, h4f0, h4fr, hm4, hchain4,
    hhf, htf, hf0f, hf0h, hkeyOf4, hvalOf4, hnxtOf4, hprvOf4, hperm4, hnodup4⟩ :=
    addNew_splice hwf k v
  have hnil : c.hashmap = [] := hwf.hashmap_nil
  have hl : lookupA c.hashmap k = none := by
    rw [hnil]
    rfl
  have hht : c.head ≠ c.tail := (nodup_chain_facts hwf.nodupIds).2.2.1
  have hf' : hLook c.heap c.tail = some nf := hf
  have h4tl : hLook h4 c.tail = some { nf with prev := some c.fresh } := h4f0
  have h4nid' : hLook h4 c.fresh =
      some ⟨some k, some v, some c.head, some c.tail⟩ := h4nid
  obtain ⟨h7, e7, l7tl, l7lp, l7lid, l7fr, m7⟩ :=
    evictLast_spec (insertA c.hashmap k c.fresh) h4tl rfl h4nid' rfl rfl rfl h4head
      (fun he => htf he.symm) hht hhf
  have hm2 : removeA (insertA c.hashmap k c.fresh) k = [] := by
    rw [hnil]
    simp [insertA, removeA]
  have hfr_notmem : c.fresh ∉ c.heap.map Prod.fst := fun hmem =>
    absurd (hwf.freshBound _ hmem) (lt_irrefl _)
  have hmfst7 : h7.map Prod.fst = c.heap.map Prod.fst := by
    rw [m7, hm4, List.filter_append, filter_ne_of_not_mem hfr_notmem]
    simp
  have hnhkey : nh.key = none := by
    have h0 := hwf.headKey
    unfold keyOf at h0
    rw [hh] at h0
    simpa using h0
  have hnhval : nh.value = none := by
    have h0 := hwf.headVal
    unfold valOf at h0
    rw [hh] at h0
    simpa using h0
  have hnhprev : nh.prev = none := by
    have h0 := hwf.headPrev
    unfold prv at h0
    rw [hh] at h0
    simpa using h0
  have hnfkey : nf.key = none := by
    have h0 := hwf.tailKey
    unfold keyOf at h0
    rw [hf'] at h0
    simpa using h0
  have hnfval : nf.value = none := by
    have h0 := hwf.tailVal
    unfold valOf at h0
    rw [hf'] at h0
    simpa using h0
  have hnfnext : nf.next = none := by
    have h0 := hwf.tailNext
    unfold nxt at h0
    rw [hf'] at h0
    simpa using h0
  refine ⟨⟨removeA (insertA c.hashmap k c.fresh) k, c.cap, c.len + 1, c.head, c.tail,
    h7, c.fresh + 1⟩, ?_, ?_, hm2, rfl, rfl, rfl, rfl, rfl⟩
  · simp only [add, hl, Option.bind_eq_bind, Option.some_bind, esf, if_pos hyes, e7,
      Option.pure_def]
  · refine { chain := ?_, domain := ?_, nodupIds := ?_, nodupKeys := by simp,
             entriesKey := ?_, entriesVal := ?_, hmOrder := ?_, hmSub := ?_,
             headKey := ?_, headVal := ?_, headPrev := ?_, tailKey := ?_,
             tailVal := ?_, tailNext := ?_, freshBound := ?_ }
    · show chainSeg h7 c.head ([] : List Nat) c.tail
      refine ⟨?_, ?_⟩
      · unfold nxt
        rw [l7lp]
        rfl
      · unfold prv
        rw [l7tl]
        rfl
    · show (h7.map Prod.fst).Perm (c.head :: List.map Prod.snd [] ++ [c.tail])
      rw [hmfst7]
      exact hwf.domain
    · exact hwf.nodupIds
    · intro p hp
      cases hp
    · intro p hp
      cases hp
    · intro p hp
      cases hp
    · intro p hp
      rw [hm2] at hp
      cases hp
    · show keyOf h7 c.head = none
      unfold keyOf
      rw [l7lp]
      exact hnhkey
    · show valOf h7 c.head = none
      unfold valOf
      rw [l7lp]
      exact hnhval
    · show prv h7 c.head = none
      unfold prv
      rw [l7lp]
      exact hnhprev
    · show keyOf h7 c.tail = none
      unfold keyOf
      rw [l7tl]
      exact hnfkey
    · show valOf h7 c.tail = none
      unfold valOf
      rw [l7tl]
      exact hnfval
    · show nxt h7 c.tail = none
      unfold nxt
      rw [l7tl]
      exact hnfnext
    · intro i hi
      show i < c.fresh + 1
      rw [hmfst7] at hi
      exact Nat.lt_trans (hwf.freshBound i hi) (Nat.lt_succ_self _)

/-- C8: when `k` is present, `remove(k)` unlinks its node from the
ordering, deletes `k` from the index, decrements the count, and returns
`Some` of its value; when `k` is absent, `get`, `peek` and `remove` all
return the explicit no-value result (`None`, never a panic) and leave the
cache unchanged. -/
theorem remove_spec (c : LRUCache K V) (order : List (K × Nat)) (k : K)
    (hwf : WF c order) :
    (∀ nid v, lookupA order k = some nid → valOf c.heap nid = some v →
      ∃ c', remove k c = some (some v, c') ∧ WF c' (removeA order k) ∧
        c'.len = c.len - 1 ∧ c'.hashmap = removeA c.hashmap k ∧
        lookupA c'.hashmap k = none ∧
        c'.cap = c.cap ∧ c'.head = c.head ∧ c'.tail = c.tail) ∧
    (lookupA order k = none →
      remove k c = some (none, c) ∧ get k c = some (none, c) ∧
      peek k c = some (none, c)) := by
  constructor
  · intro nid v ho hv
    obtain ⟨o1, o2, horder, hko1⟩ := lookupA_some_split ho
    subst horder
    set xs := o1.map Prod.snd with hxs_def
    set ys := o2.map Prod.snd with hys_def
    have hmap : (o1 ++ (k, nid) :: o2).map Prod.snd = xs ++ nid :: ys := by
      simp [hxs_def, hys_def]
    have hchain := hwf.chain
    rw [hmap] at hchain
    have hnod := hwf.nodupIds
    rw [hmap] at hnod
    obtain ⟨nd1, hmA, hmB, ndB, hdisj⟩ := nodup_split3 hnod
    obtain ⟨n, hn⟩ := hwf.entry_live ho
    obtain ⟨hseg1, hseg2⟩ := (chainSeg_append c.heap c.head nid c.tail xs ys).mp hchain
    have hlinkp : linked c.heap (xs.getLastD c.head) nid := chainSeg_lastD hseg1
    have hlinkq : linked c.heap nid (ys.headD c.tail) := chainSeg_headD hseg2
    set p := xs.getLastD c.head with hp_def
    set q := ys.headD c.tail with hq_def
    have hnp : n.prev = some p := by
      have h0 := hlinkp.2
      unfold prv at h0
      rw [hn] at h0
      simpa using h0
    have hnq : n.next = some q := by
      have h0 := hlinkq.1
      unfold nxt at h0
      rw [hn] at h0
      simpa using h0
    have hpmemA : p ∈ c.head :: xs := getLastD_mem_cons xs c.head
    have hqmemB : q ∈ ys ++ [c.tail] := headD_mem_append ys c.tail
    have hpmem : p ∈ c.head :: (o1 ++ (k, nid) :: o2).map Prod.snd ++ [c.tail] := by
      rw [hmap]
      rcases List.mem_cons.mp hpmemA with h1 | h1
      · simp [h1]
      · simp [h1]
    obtain ⟨np, hplook⟩ := hwf.live p hpmem
    have hqmem : q ∈ c.head :: (o1 ++ (k, nid) :: o2).map Prod.snd ++ [c.tail] := by
      rw [hmap]
      rcases List.mem_append.mp hqmemB with h1 | h1
      · simp [h1]
      · simp at h1
        simp [h1]
    obtain ⟨nq, hqlook⟩ := hwf.live q hqmem
    have hpnid : p ≠ nid := fun he => hmA (he ▸ hpmemA)
    have hqnid : q ≠ nid := fun he => hmB (he ▸ hqmemB)
    have hpq : p ≠ q := fun he => hdisj p hpmemA (he ▸ hqmemB)
    have hheadnid : c.head ≠ nid := fun he => hmA (he ▸ (by simp : c.head ∈ c.head :: xs))
    have htailnid : c.tail ≠ nid := fun he => hmB (he ▸ (by simp : c.tail ∈ ys ++ [c.tail]))
    have hheadq : c.head ≠ q := fun he => hdisj c.head (by simp) (he ▸ hqmemB)
    have htailp : c.tail ≠ p := fun he =>
      hdisj p hpmemA (he ▸ (by simp : c.tail ∈ ys ++ [c.tail]))
    have hl : lookupA c.hashmap k = some nid := by
      rw [hwf.lookup_eq]
      exact ho
    obtain ⟨h1, e1, l1at, l1fr, m1⟩ := writeNext_spec hplook (some q)
    have hq1 : hLook h1 q = some nq := by
      rw [l1fr q (fun he => hpq he.symm)]
      exact hqlook
    obtain ⟨h2, e2, l2at, l2fr, m2⟩ := writePrev_spec hq1 (some p)
    have hn2 : hLook h2 nid = some n := by
      rw [l2fr nid (fun he => hqnid he.symm), l1fr nid (fun he => hpnid he.symm)]
      exact hn
    have hval : n.value = some v := by
      unfold valOf at hv
      rw [hn] at hv
      simpa using hv
    -- pointwise description of the final heap
    have hLook3 : ∀ j, j ≠ nid → hLook (hFree h2 nid) j = hLook h2 j := fun j hj => by
      rw [hLook_hFree, if_neg hj]
    have hkeyOf3 : ∀ j, j ≠ nid → keyOf (hFree h2 nid) j = keyOf c.heap j := by
      intro j hj
      unfold keyOf
      rw [hLook3 j hj]
      by_cases hjq : j = q
      · subst hjq
        rw [l2at, hqlook]
        rfl
      · rw [l2fr j hjq]
        by_cases hjp : j = p
        · subst hjp
          rw [l1at, hplook]
          rfl
        · rw [l1fr j hjp]
    have hvalOf3 : ∀ j, j ≠ nid → valOf (hFree h2 nid) j = valOf c.heap j := by
      intro j hj
      unfold valOf
      rw [hLook3 j hj]
      by_cases hjq : j = q
      · subst hjq
        rw [l2at, hqlook]
        rfl
      · rw [l2fr j hjq]
        by_cases hjp : j = p
        · subst hjp
          rw [l1at, hplook]
          rfl
        · rw [l1fr j hjp]
    have hnxtOf3 : ∀ j, j ≠ p → j ≠ nid → nxt (hFree h2 nid) j = nxt c.heap j := by
      intro j hjp hj
      unfold nxt
      rw [hLook3 j hj]
      by_cases hjq : j = q
      · subst hjq
        rw [l2at, hqlook]
        rfl
      · rw [l2fr j hjq, l1fr j hjp]
    have hprvOf3 : ∀ j, j ≠ q → j ≠ nid → prv (hFree h2 nid) j = prv c.heap j := by
      intro j hjq hj
      unfold prv
      rw [hLook3 j hj]
      by_cases hjp : j = p
      · subst hjp
        rw [l2fr p hjq, l1at, hplook]
        rfl
      · rw [l2fr j hjq, l1fr j hjp]
    have hnxtp3 : nxt (hFree h2 nid) p = some q := by
      unfold nxt
      rw [hLook3 p hpnid, l2fr p hpq, l1at]
      rfl
    have hprvq3 : prv (hFree h2 nid) q = some p := by
      unfold prv
      rw [hLook3 q hqnid, l2at]
      rfl
    have hchain3 : chainSeg (hFree h2 nid) c.head (xs ++ ys) c.tail :=
      unlink_chain hchain hnod hnxtp3 hprvq3 hnxtOf3 hprvOf3
    obtain ⟨hk1, hk2, hkn⟩ := nodup_keys_split hwf.nodupKeys
    have hrem : removeA (o1 ++ (k, nid) :: o2) k = o1 ++ o2 := by
      rw [removeA_append, removeA_of_not_mem hko1]
      have hstep : removeA ((k, nid) :: o2) k = removeA o2 k := by
        simp [removeA]
      rw [hstep, removeA_of_not_mem hk2]
    have hmfst : (hFree h2 nid).map Prod.fst =
        (c.heap.map Prod.fst).filter (fun j => decide (j ≠ nid)) := by
      rw [hFree_map_fst, m2, m1]
    have hmemsnd : ∀ p' ∈ o1 ++ o2, p'.2 ≠ nid := by
      intro p' hp' he
      rcases List.mem_append.mp hp' with h1 | h1
      · exact hmA (List.mem_cons_of_mem _ (he ▸ List.mem_map_of_mem Prod.snd h1))
      · exact hmB (List.mem_append_left _ (he ▸ List.mem_map_of_mem Prod.snd h1))
    have hmemord : ∀ p' ∈ o1 ++ o2, p' ∈ o1 ++ (k, nid) :: o2 := by
      intro p' hp'
      rcases List.mem_append.mp hp' with h1 | h1
      · exact List.mem_append_left _ h1
      · exact List.mem_append_right _ (List.mem_cons_of_mem _ h1)
    refine ⟨⟨removeA c.hashmap k, c.cap, c.len - 1, c.head, c.tail, hFree h2 nid, c.fresh⟩,
      ?_, ?_, rfl, rfl, lookupA_removeA_self c.hashmap k, rfl, rfl, rfl⟩
    · simp only [remove, hl, hn, Option.bind_eq_bind, Option.some_bind, hnp, hnq, e1, e2,
        hn2, hval, Option.pure_def]
    · rw [hrem]
      refine { chain := ?_, domain := ?_, nodupIds := ?_, nodupKeys := hkn,
               entriesKey := ?_, entriesVal := ?_, hmOrder := ?_, hmSub := ?_,
               headKey := ?_, headVal := ?_, headPrev := ?_, tailKey := ?_,
               tailVal := ?_, tailNext := ?_, freshBound := ?_ }
      · show chainSeg (hFree h2 nid) c.head ((o1 ++ o2).map Prod.snd) c.tail
        rw [List.map_append]
        exact hchain3
      · show ((hFree h2 nid).map Prod.fst).Perm
          (c.head :: (o1 ++ o2).map Prod.snd ++ [c.tail])
        rw [hmfst, List.map_append]
        have hperm := hwf.domain.filter (fun j => decide (j ≠ nid))
        have hhead : c.head ≠ nid := hheadnid
        have htail : c.tail ≠ nid := htailnid
        have hxsmem : nid ∉ xs := fun hmem => hmA (List.mem_cons_of_mem _ hmem)
        have hysmem : nid ∉ ys := fun hmem => hmB (List.mem_append_left _ hmem)
        have hfil : (c.head :: (o1 ++ (k, nid) :: o2).map Prod.snd ++ [c.tail]).filter
            (fun j => decide (j ≠ nid)) = c.head :: (xs ++ ys) ++ [c.tail] := by
          rw [hmap]
          have hshape : (c.head :: (xs ++ nid :: ys) ++ [c.tail] : List Nat)
              = (c.head :: xs) ++ nid :: (ys ++ [c.tail]) := by simp
          rw [hshape, List.filter_append, filter_ne_of_not_mem hmA, List.filter_cons]
          rw [if_neg (by simp)]
          rw [filter_ne_of_not_mem hmB]
          simp
        rw [hfil] at hperm
        exact hperm
      · show (c.head :: (o1 ++ o2).map Prod.snd ++ [c.tail]).Nodup
        rw [List.map_append]
        have hsub : List.Sublist (c.head :: (xs ++ ys) ++ [c.tail])
            (c.head :: (xs ++ nid :: ys) ++ [c.tail]) := by
          exact (((List.sublist_cons_self nid ys).append_left xs).append_right
            [c.tail]).cons₂ c.head
        exact hnod.sublist hsub
      · intro p' hp'
        show keyOf (hFree h2 nid) p'.2 = some p'.1
        rw [hkeyOf3 p'.2 (hmemsnd p' hp')]
        exact hwf.entriesKey p' (hmemord p' hp')
      · intro p' hp'
        show (valOf (hFree h2 nid) p'.2).isSome = true
        rw [hvalOf3 p'.2 (hmemsnd p' hp')]
        exact hwf.entriesVal p' (hmemord p' hp')
      · intro p' hp'
        show lookupA (removeA c.hashmap k) p'.1 = some p'.2
        have hp'k : ¬ p'.1 = k := by
          intro he
          rcases List.mem_append.mp hp' with h1 | h1
          · exact hk1 (he ▸ List.mem_map_of_mem Prod.fst h1)
          · exact hk2 (he ▸ List.mem_map_of_mem Prod.fst h1)
        rw [lookupA_removeA_ne hp'k]
        exact hwf.hmOrder p' (hmemord p' hp')
      · intro p' hp'
        obtain ⟨hmem, hne⟩ := mem_removeA hp'
        have h0 := hwf.hmSub p' hmem
        rw [lookupA_middle_ne hne] at h0
        exact h0
      · show keyOf (hFree h2 nid) c.head = none
        rw [hkeyOf3 c.head hheadnid]
        exact hwf.headKey
      · show valOf (hFree h2 nid) c.head = none
        rw [hvalOf3 c.head hheadnid]
        exact hwf.headVal
      · show prv (hFree h2 nid) c.head = none
        rw [hprvOf3 c.head hheadq hheadnid]
        exact hwf.headPrev
      · show keyOf (hFree h2 nid) c.tail = none
        rw [hkeyOf3 c.tail htailnid]
        exact hwf.tailKey
      · show valOf (hFree h2 nid) c.tail = none
        rw [hvalOf3 c.tail htailnid]
        exact hwf.tailVal
      · show nxt (hFree h2 nid) c.tail = none
        rw [hnxtOf3 c.tail htailp htailnid]
        exact hwf.tailNext
      · intro i hi
        show i < c.fresh
        rw [hmfst] at hi
        exact hwf.freshBound i (List.mem_of_mem_filter hi)
  · intro ho
    have hl : lookupA c.hashmap k = none := by
      rw [hwf.lookup_eq]
      exact ho
    exact ⟨by simp [remove, hl], by simp [get, hl], by simp [peek, hl]⟩

/-- Full behaviour of `get` on a well-formed cache: the hit branch
promotes the entry and preserves the invariant, the miss branch is the
identity. -/
theorem get_spec_full (c : LRUCache K V) (order : List (K × Nat)) (k : K)
    (hwf : WF c order) :
    (∀ nid v, lookupA order k = some nid → valOf c.heap nid = some v →
      ∃ c', get k c = some (some v, c') ∧ WF c' ((k, nid) :: removeA order k) ∧
        c'.hashmap = c.hashmap ∧ c'.len = c.len ∧ c'.cap = c.cap ∧
        c'.head = c.head ∧ c'.tail = c.tail) ∧
    (lookupA order k = none → get k c = some (none, c)) := by
  constructor
  · intro nid v ho hv
    obtain ⟨o1, o2, horder, hko1⟩ := lookupA_some_split ho
    subst horder
    set xs := o1.map Prod.snd with hxs_def
    set ys := o2.map Prod.snd with hys_def
    have hmap : (o1 ++ (k, nid) :: o2).map Prod.snd = xs ++ nid :: ys := by
      simp [hxs_def, hys_def]
    have hchain := hwf.chain
    rw [hmap] at hchain
    have hnod := hwf.nodupIds
    rw [hmap] at hnod
    obtain ⟨nd1, hmA, hmB, ndB, hdisj⟩ := nodup_split3 hnod
    obtain ⟨n, hn⟩ := hwf.entry_live ho
    obtain ⟨hseg1, hseg2⟩ := (chainSeg_append c.heap c.head nid c.tail xs ys).mp hchain
    have hlinkp : linked c.heap (xs.getLastD c.head) nid := chainSeg_lastD hseg1
    have hlinkq : linked c.heap nid (ys.headD c.tail) := chainSeg_headD hseg2
    set p := xs.getLastD c.head with hp_def
    set q := ys.headD c.tail with hq_def
    have hnp : n.prev = some p := by
      have h0 := hlinkp.2
      unfold prv at h0
      rw [hn] at h0
      simpa using h0
    have hnq : n.next = some q := by
      have h0 := hlinkq.1
      unfold nxt at h0
      rw [hn] at h0
      simpa using h0
    have hpmemA : p ∈ c.head :: xs := getLastD_mem_cons xs c.head
    have hqmemB : q ∈ ys ++ [c.tail] := headD_mem_append ys c.tail
    have hpmem : p ∈ c.head :: (o1 ++ (k, nid) :: o2).map Prod.snd ++ [c.tail] := by
      rw [hmap]
      rcases List.mem_cons.mp hpmemA with h1 | h1
      · simp [h1]
      · simp [h1]
    obtain ⟨np, hplook⟩ := hwf.live p hpmem
    have hqmem : q ∈ c.head :: (o1 ++ (k, nid) :: o2).map Prod.snd ++ [c.tail] := by
      rw [hmap]
      rcases List.mem_append.mp hqmemB with h1 | h1
      · simp [h1]
      · simp at h1
        simp [h1]
    obtain ⟨nq, hqlook⟩ := hwf.live q hqmem
    have hheadxs : c.head ∉ xs := (List.nodup_cons.mp nd1).1
    have hpnid : p ≠ nid := fun he => hmA (he ▸ hpmemA)
    have hqnid : q ≠ nid := fun he => hmB (he ▸ hqmemB)
    have hpq : p ≠ q := fun he => hdisj p hpmemA (he ▸ hqmemB)
    have hheadnid : c.head ≠ nid := fun he => hmA (he ▸ (by simp : c.head ∈ c.head :: xs))
    have htailnid : c.tail ≠ nid := fun he => hmB (he ▸ (by simp : c.tail ∈ ys ++ [c.tail]))
    have hheadq : c.head ≠ q := fun he => hdisj c.head (by simp) (he ▸ hqmemB)
    have htailp : c.tail ≠ p := fun he =>
      hdisj p hpmemA (he ▸ (by simp : c.tail ∈ ys ++ [c.tail]))
    have hl : lookupA c.hashmap k = some nid := by
      rw [hwf.lookup_eq]
      exact ho
    obtain ⟨h1, e1, l1at, l1fr, m1⟩ := writeNext_spec hplook (some q)
    have hq1 : hLook h1 q = some nq := by
      rw [l1fr q (fun he => hpq he.symm)]
      exact hqlook
    obtain ⟨h2, e2, l2at, l2fr, m2⟩ := writePrev_spec hq1 (some p)
    have hn2 : hLook h2 nid = some n := by
      rw [l2fr nid (fun he => hqnid he.symm), l1fr nid (fun he => hpnid he.symm)]
      exact hn
    have hval : n.value = some v := by
      unfold valOf at hv
      rw [hn] at hv
      simpa using hv
    -- the unlinked chain, before the splice
    have hnxtp2 : nxt h2 p = some q := by
      unfold nxt
      rw [l2fr p hpq, l1at]
      rfl
    have hprvq2 : prv h2 q = some p := by
      unfold prv
      rw [l2at]
      rfl
    have hnxtOf2 : ∀ j, j ≠ p → nxt h2 j = nxt c.heap j := by
      intro j hjp
      unfold nxt
      by_cases hjq : j = q
      · subst hjq
        rw [l2at, hqlook]
        rfl
      · rw [l2fr j hjq, l1fr j hjp]
    have hprvOf2 : ∀ j, j ≠ q → prv h2 j = prv c.heap j := by
      intro j hjq
      unfold prv
      by_cases hjp : j = p
      · subst hjp
        rw [l2fr p hjq, l1at, hplook]
        rfl
      · rw [l2fr j hjq, l1fr j hjp]
    have hkeyOf2 : ∀ j, keyOf h2 j = keyOf c.heap j := by
      intro j
      unfold keyOf
      by_cases hjq : j = q
      · subst hjq
        rw [l2at, hqlook]
        rfl
      · rw [l2fr j hjq]
        by_cases hjp : j = p
        · subst hjp
          rw [l1at, hplook]
          rfl
        · rw [l1fr j hjp]
    have hvalOf2 : ∀ j, valOf h2 j = valOf c.heap j := by
      intro j
      unfold valOf
      by_cases hjq : j = q
      · subst hjq
        rw [l2at, hqlook]
        rfl
      · rw [l2fr j hjq]
        by_cases hjp : j = p
        · subst hjp
          rw [l1at, hplook]
          rfl
        · rw [l1fr j hjp]
    have hchain2 : chainSeg h2 c.head (xs ++ ys) c.tail :=
      unlink_chain hchain hnod hnxtp2 hprvq2 (fun i hip _ => hnxtOf2 i hip)
        (fun i hiq _ => hprvOf2 i hiq)
    -- head's next pointer in h2 is the head of the unlinked chain
    have hhead2 : nxt h2 c.head = some ((xs ++ ys).headD c.tail) := by
      by_cases hxsnil : xs = []
      · have hphead : p = c.head := by
          rw [hp_def, hxsnil]
          rfl
        rw [hxsnil]
        rw [← hphead]
        simp only [List.nil_append]
        rw [← hq_def]
        exact hnxtp2
      · obtain ⟨x0, xt, hxe⟩ := List.exists_cons_of_ne_nil hxsnil
        have hphead : p ≠ c.head := fun he =>
          hheadxs (he ▸ getLastD_mem_of_ne_nil hxsnil c.head)
        rw [hnxtOf2 c.head (fun he => hphead he.symm)]
        have h0 := (chainSeg_headD hchain).1
        rw [hxe] at h0 ⊢
        simpa using h0
    have hf0nid : (xs ++ ys).headD c.tail ≠ nid := by
      intro he
      rcases List.mem_append.mp (headD_mem_append (xs ++ ys) c.tail) with h1 | h1
      · rcases List.mem_append.mp (he ▸ h1) with h2 | h2
        · exact hmA (List.mem_cons_of_mem _ h2)
        · exact hmB (List.mem_append_left _ h2)
      · have h1s := List.mem_singleton.mp h1
        exact htailnid (h1s ▸ he)
    have hf0head : (xs ++ ys).headD c.tail ≠ c.head := by
      intro he
      rcases List.mem_append.mp (headD_mem_append (xs ++ ys) c.tail) with h1 | h1
      · rcases List.mem_append.mp (he ▸ h1) with h2 | h2
        · exact hheadxs h2
        · exact hdisj c.head (by simp) (List.mem_append_left _ h2)
      · have h1s := List.mem_singleton.mp h1
        have hht : c.head = c.tail := by rw [← he, h1s]
        exact hdisj c.head (by simp) (by rw [hht]; simp)
    have hf0mem : (xs ++ ys).headD c.tail ∈
        c.head :: (o1 ++ (k, nid) :: o2).map Prod.snd ++ [c.tail] := by
      rw [hmap]
      rcases List.mem_append.mp (headD_mem_append (xs ++ ys) c.tail) with h1 | h1
      · rcases List.mem_append.mp h1 with h2 | h2
        · exact List.mem_cons_of_mem _
            (List.mem_append_left _ (List.mem_append_left _ h2))
        · exact List.mem_cons_of_mem _ (List.mem_append_left _
            (List.mem_append_right _ (List.mem_cons_of_mem _ h2)))
      · have h1s := List.mem_singleton.mp h1
        rw [h1s]
        exact List.mem_cons_of_mem _ (List.mem_append_right _ (by simp))
    have hf0live : ∃ nf0, hLook h2 ((xs ++ ys).headD c.tail) = some nf0 := by
      obtain ⟨nf0, hnf0⟩ := hwf.live _ hf0mem
      refine ⟨if (xs ++ ys).headD c.tail = q then { nq with prev := some p } else
        (if (xs ++ ys).headD c.tail = p then { np with next := some q } else nf0), ?_⟩
      by_cases hfq : (xs ++ ys).headD c.tail = q
      · rw [if_pos hfq, hfq]
        exact l2at
      · rw [if_neg hfq, l2fr _ hfq]
        by_cases hfp : (xs ++ ys).headD c.tail = p
        · rw [if_pos hfp, hfp]
          exact l1at
        · rw [if_neg hfp, l1fr _ hfp]
          exact hnf0
    obtain ⟨nf0, hf0look⟩ := hf0live
    obtain ⟨nh2, hh2look⟩ : ∃ nh2, hLook h2 c.head = some nh2 := by
      unfold nxt at hhead2
      cases e : hLook h2 c.head with
      | none => rw [e] at hhead2; cases hhead2
      | some nh2 => exact ⟨nh2, rfl⟩
    have hnh2next : nh2.next = some ((xs ++ ys).headD c.tail) := by
      unfold nxt at hhead2
      rw [hh2look] at hhead2
      simpa using hhead2
    obtain ⟨h6, esf, hh6at, hn6at, hf6at, h6fr, m6⟩ :=
      spliceFront_spec hn2 hh2look (fun he => hheadnid he.symm) hnh2next hf0look hf0head
    rw [if_neg hf0nid] at hn6at
    -- frame facts for the splice
    have hFn6 : ∀ i, i ≠ c.head → i ≠ nid → nxt h6 i = nxt h2 i := by
      intro i hih hin
      by_cases hif : i = (xs ++ ys).headD c.tail
      · subst hif
        unfold nxt
        rw [hf6at hf0nid, hf0look]
        rfl
      · unfold nxt
        rw [h6fr i hih hin hif]
    have hFp6 : ∀ i, i ≠ (xs ++ ys).headD c.tail → i ≠ nid → prv h6 i = prv h2 i := by
      intro i hif hin
      by_cases hih : i = c.head
      · subst hih
        unfold prv
        rw [hh6at, hh2look]
        rfl
      · unfold prv
        rw [h6fr i hih hin hif]
    have hnodup2 : (c.head :: (xs ++ ys) ++ [c.tail]).Nodup := by
      have hsub : List.Sublist (c.head :: (xs ++ ys) ++ [c.tail])
          (c.head :: (xs ++ nid :: ys) ++ [c.tail]) :=
        (((List.sublist_cons_self nid ys).append_left xs).append_right
          [c.tail]).cons₂ c.head
      exact hnod.sublist hsub
    have hnidmem : nid ∉ c.head :: (xs ++ ys) ++ [c.tail] := by
      intro hmem
      rcases List.mem_cons.mp hmem with h1 | h1
      · exact hheadnid h1.symm
      · rcases List.mem_append.mp h1 with h2 | h2
        · rcases List.mem_append.mp h2 with h3 | h3
          · exact hmA (List.mem_cons_of_mem _ h3)
          · exact hmB (List.mem_append_left _ h3)
        · simp at h2
          exact htailnid h2.symm
    have hchain6 : chainSeg h6 c.head (nid :: (xs ++ ys)) c.tail := by
      refine splice_chain hchain2 hnodup2 hnidmem ?_ ?_ ?_ ?_ hFn6 hFp6
      · unfold nxt
        rw [hh6at]
        rfl
      · unfold prv
        rw [hn6at]
        rfl
      · unfold nxt
        rw [hn6at]
        rfl
      · unfold prv
        rw [hf6at hf0nid]
        rfl
    -- key/value fields are untouched throughout
    have hkeyOf6 : ∀ j, keyOf h6 j = keyOf c.heap j := by
      intro j
      rw [← hkeyOf2 j]
      unfold keyOf
      by_cases hjh : j = c.head
      · subst hjh
        rw [hh6at, hh2look]
        rfl
      · by_cases hjn : j = nid
        · subst hjn
          rw [hn6at, hn2]
          rfl
        · by_cases hjf : j = (xs ++ ys).headD c.tail
          · subst hjf
            rw [hf6at hf0nid, hf0look]
            rfl
          · rw [h6fr j hjh hjn hjf]
    have hvalOf6 : ∀ j, valOf h6 j = valOf c.heap j := by
      intro j
      rw [← hvalOf2 j]
      unfold valOf
      by_cases hjh : j = c.head
      · subst hjh
        rw [hh6at, hh2look]
        rfl
      · by_cases hjn : j = nid
        · subst hjn
          rw [hn6at, hn2]
          rfl
        · by_cases hjf : j = (xs ++ ys).headD c.tail
          · subst hjf
            rw [hf6at hf0nid, hf0look]
            rfl
          · rw [h6fr j hjh hjn hjf]
    obtain ⟨hk1, hk2, hkn⟩ := nodup_keys_split hwf.nodupKeys
    have hrem : removeA (o1 ++ (k, nid) :: o2) k = o1 ++ o2 := by
      rw [removeA_append, removeA_of_not_mem hko1]
      have hstep : removeA ((k, nid) :: o2) k = removeA o2 k := by
        simp [removeA]
      rw [hstep, removeA_of_not_mem hk2]
    have hmemord : ∀ p' ∈ o1 ++ o2, p' ∈ o1 ++ (k, nid) :: o2 := by
      intro p' hp'
      rcases List.mem_append.mp hp' with h1 | h1
      · exact List.mem_append_left _ h1
      · exact List.mem_append_right _ (List.mem_cons_of_mem _ h1)
    have hlookup_reorder : ∀ x, lookupA ((k, nid) :: (o1 ++ o2)) x =
        lookupA (o1 ++ (k, nid) :: o2) x := by
      intro x
      by_cases hxk : x = k
      · subst hxk
        rw [ho]
        simp [lookupA]
      · have hkx : ¬ k = x := fun he => hxk he.symm
        rw [lookupA_middle_ne (fun he => hxk he)]
        simp [lookupA, hkx]
    refine ⟨⟨c.hashmap, c.cap, c.len, c.head, c.tail, h6, c.fresh⟩,
      ?_, ?_, rfl, rfl, rfl, rfl, rfl⟩
    · simp only [get, hl, hn, Option.bind_eq_bind, Option.some_bind, hnp, hnq, e1, e2,
        esf, hn6at, hval, Option.pure_def]
    · rw [hrem]
      refine { chain := ?_, domain := ?_, nodupIds := ?_, nodupKeys := ?_,
               entriesKey := ?_, entriesVal := ?_, hmOrder := ?_, hmSub := ?_,
               headKey := ?_, headVal := ?_, headPrev := ?_, tailKey := ?_,
               tailVal := ?_, tailNext := ?_, freshBound := ?_ }
      · show chainSeg h6 c.head (((k, nid) :: (o1 ++ o2)).map Prod.snd) c.tail
        rw [List.map_cons, List.map_append]
        exact hchain6
      · show (h6.map Prod.fst).Perm
          (c.head :: ((k, nid) :: (o1 ++ o2)).map Prod.snd ++ [c.tail])
        rw [m6, m2, m1, List.map_cons, List.map_append]
        have hperm0 := hwf.domain
        rw [hmap] at hperm0
        refine hperm0.trans ?_
        exact (List.perm_middle.append_right [c.tail]).cons c.head
      · show (c.head :: ((k, nid) :: (o1 ++ o2)).map Prod.snd ++ [c.tail]).Nodup
        rw [List.map_cons, List.map_append]
        have hperm1 : (c.head :: (xs ++ nid :: ys) ++ [c.tail]).Perm
            (c.head :: (nid :: (xs ++ ys)) ++ [c.tail]) :=
          (List.perm_middle.append_right [c.tail]).cons c.head
        exact hperm1.nodup_iff.mp hnod
      · show (((k, nid) :: (o1 ++ o2)).map Prod.fst).Nodup
        rw [List.map_cons]
        refine List.nodup_cons.mpr ⟨?_, hkn⟩
        rw [List.map_append]
        intro hmem
        rcases List.mem_append.mp hmem with h1 | h1
        · exact hk1 h1
        · exact hk2 h1
      · intro p' hp'
        show keyOf h6 p'.2 = some p'.1
        rw [hkeyOf6]
        rcases List.mem_cons.mp hp' with h1 | h1
        · subst h1
          exact hwf.entriesKey (k, nid) (by simp)
        · exact hwf.entriesKey p' (hmemord p' h1)
      · intro p' hp'
        show (valOf h6 p'.2).isSome = true
        rw [hvalOf6]
        rcases List.mem_cons.mp hp' with h1 | h1
        · subst h1
          exact hwf.entriesVal (k, nid) (by simp)
        · exact hwf.entriesVal p' (hmemord p' h1)
      · intro p' hp'
        show lookupA c.hashmap p'.1 = some p'.2
        rcases List.mem_cons.mp hp' with h1 | h1
        · subst h1
          exact hl
        · exact hwf.hmOrder p' (hmemord p' h1)
      · intro p' hp'
        show lookupA ((k, nid) :: (o1 ++ o2)) p'.1 = some p'.2
        rw [hlookup_reorder]
        exact hwf.hmSub p' hp'
      · show keyOf h6 c.head = none
        rw [hkeyOf6]
        exact hwf.headKey
      · show valOf h6 c.head = none
        rw [hvalOf6]
        exact hwf.headVal
      · show prv h6 c.head = none
        rw [hFp6 c.head (fun he => hf0head he.symm) hheadnid, hprvOf2 c.head hheadq]
        exact hwf.headPrev
      · show keyOf h6 c.tail = none
        rw [hkeyOf6]
        exact hwf.tailKey
      · show valOf h6 c.tail = none
        rw [hvalOf6]
        exact hwf.tailVal
      · show nxt h6 c.tail = none
        rw [hFn6 c.tail (fun he => (nodup_chain_facts hnod).2.2.1 he.symm) htailnid,
            hnxtOf2 c.tail htailp]
        exact hwf.tailNext
      · intro i hi
        show i < c.fresh
        rw [m6, m2, m1] at hi
        exact hwf.freshBound i hi
  · intro ho
    have hl : lookupA c.hashmap k = none := by
      rw [hwf.lookup_eq]
      exact ho
    simp [get, hl]

/-- C5: on a hit, `get(k)` promotes `k`'s entry to the most-recently-used
position (the new entry order is `k` followed by the old order with `k`
removed), returns `Some` of a copy of the stored value, and leaves index
and count untouched; on a miss it returns `None` and the cache is
completely unchanged. -/
theorem get_spec (c : LRUCache K V) (order : List (K × Nat)) (k : K)
    (hwf : WF c order) :
    (∀ nid v, lookupA order k = some nid → valOf c.heap nid = some v →
      ∃ c', get k c = some (some v, c') ∧ WF c' ((k, nid) :: removeA order k) ∧
        c'.hashmap = c.hashmap ∧ c'.len = c.len ∧ c'.cap = c.cap ∧
        c'.head = c.head ∧ c'.tail = c.tail) ∧
    (lookupA order k = none → get k c = some (none, c)) :=
  get_spec_full c order k hwf

/-- Every state reachable from `new 0` by public operations is well formed
with no live entries (every insertion immediately self-evicts). -/
theorem reach0_invariant {c : LRUCache K V} (hreach : Reach 0 c) :
    WF c [] ∧ c.cap = 0 := by
  have hr : Relation.ReflTransGen Step (new 0) c := hreach
  clear hreach
  induction hr with
  | refl => exact ⟨wf_new 0, rfl⟩
  | @tail b cf hab hbc ih =>
    obtain ⟨hwfb, hcapb⟩ := ih
    have hbc' : (∃ k v r, add k v b = some (r, cf)) ∨
        (∃ k r, get k b = some (r, cf)) ∨
        (∃ k r, remove k b = some (r, cf)) ∨
        (∃ k r, peek k b = some (r, cf)) := hbc
    have hlany : ∀ k : K, lookupA b.hashmap k = none := by
      intro k
      rw [hwfb.hashmap_nil]
      rfl
    rcases hbc' with ⟨k, v, r, hadd⟩ | ⟨k, r, hget⟩ | ⟨k, r, hrem⟩ | ⟨k, r, hpeek⟩
    · obtain ⟨c'', hadd', hwf', hhm', hcap', hfr', hlen', hhd', htl'⟩ :=
        add_empty_evict b k v hwfb (by rw [hcapb]; exact Nat.succ_pos _)
      rw [hadd] at hadd'
      simp only [Option.some.injEq, Prod.mk.injEq] at hadd'
      rw [hadd'.2]
      exact ⟨hwf', hcap'.trans hcapb⟩
    · have h0 : get k b = some (none, b) := by simp [get, hlany k]
      rw [h0] at hget
      simp only [Option.some.injEq, Prod.mk.injEq] at hget
      rw [← hget.2]
      exact ⟨hwfb, hcapb⟩
    · have h0 : remove k b = some (none, b) := by simp [remove, hlany k]
      rw [h0] at hrem
      simp only [Option.some.injEq, Prod.mk.injEq] at hrem
      rw [← hrem.2]
      exact ⟨hwfb, hcapb⟩
    · have h0 : peek k b = some (none, b) := by simp [peek, hlany k]
      rw [h0] at hpeek
      simp only [Option.some.injEq, Prod.mk.injEq] at hpeek
      rw [← hpeek.2]
      exact ⟨hwfb, hcapb⟩

/-- C10: on any cache reachable from `new 0` (capacity 0), every key is
absent, and `add(k, v)` returns `Some((k, v))` — the newly inserted entry
is itself immediately evicted — after which `k` is still absent:
`peek(k)` returns `None`. -/
theorem cap0_add_self_evict (c : LRUCache K V) (k : K) (v : V) (hreach : Reach 0 c) :
    lookupA c.hashmap k = none ∧
    ∃ c', add k v c = some (some (k, v), c') ∧ peek k c' = some (none, c') := by
  obtain ⟨hwf, hcap⟩ := reach0_invariant hreach
  have hl : lookupA c.hashmap k = none := by
    rw [hwf.hashmap_nil]
    rfl
  obtain ⟨c', hadd, hwf', hhm', hcap', hfr', hlen', hhd', htl'⟩ :=
    add_empty_evict c k v hwf (by rw [hcap]; exact Nat.succ_pos _)
  refine ⟨hl, c', hadd, ?_⟩
  have hl' : lookupA c'.hashmap k = none := by
    rw [hhm']
    rfl
  simp [peek, hl']

/-- Witness for C10 at the concrete initial state `new 0` with key 3 and
value 7. -/
theorem cap0_add_self_evict_witness :
    Reach 0 (new 0 : LRUCache Nat Nat) ∧
    (lookupA (new 0 : LRUCache Nat Nat).hashmap 3 = none ∧
     ∃ c', add 3 7 (new 0 : LRUCache Nat Nat) = some (some (3, 7), c') ∧
       peek 3 c' = some (none, c')) :=
  ⟨Relation.ReflTransGen.refl,
   cap0_add_self_evict (new 0) 3 7 Relation.ReflTransGen.refl⟩

/-- Executing `add` on an existing key (value replaced in place, node
re-spliced behind the head sentinel without unlinking it first) and then
`get` of the same key: both calls complete without panic and the `get`
returns the freshly stored value — even though when the key was not
already most recently used the intermediate list is corrupted. -/
theorem add_existing_get (c : LRUCache K V) (order : List (K × Nat)) (k : K) (v : V)
    (nid : Nat) (hwf : WF c order) (ho : lookupA order k = some nid)
    (hno : ¬ c.len > c.cap) :
    ∃ c' c'', add k v c = some (none, c') ∧ get k c' = some (some v, c'') := by
  have hl : lookupA c.hashmap k = some nid := (hwf.lookup_eq k).trans ho
  obtain ⟨n, hn⟩ := hwf.entry_live ho
  obtain ⟨nh, hh⟩ := hwf.live c.head (by simp)
  have hnidmem : nid ∈ order.map Prod.snd :=
    List.mem_map_of_mem Prod.snd (lookupA_some_mem ho)
  have hfacts := nodup_chain_facts hwf.nodupIds
  have hne : nid ≠ c.head := fun he => hfacts.1 (he ▸ hnidmem)
  obtain ⟨f0, hf0mem, hnhnext⟩ : ∃ f0, f0 ∈ order.map Prod.snd ++ [c.tail] ∧
      nh.next = some f0 := by
    refine ⟨(order.map Prod.snd).headD c.tail, headD_mem_append _ _, ?_⟩
    have h0 := (chainSeg_headD hwf.chain).1
    unfold nxt at h0
    rw [hh] at h0
    simpa using h0
  have hfh : f0 ≠ c.head := by
    intro he
    rcases List.mem_append.mp hf0mem with h1 | h1
    · exact hfacts.1 (he ▸ h1)
    · exact hfacts.2.2.1 (he.symm.trans (List.mem_singleton.mp h1))
  obtain ⟨nf, hf⟩ := hwf.live f0 (by
    rcases List.mem_append.mp hf0mem with h1 | h1
    · exact List.mem_cons_of_mem _ (List.mem_append_left _ h1)
    · exact List.mem_cons_of_mem _ (List.mem_append_right _ h1))
  obtain ⟨hv1, ev, lvat, lvfr, mv⟩ := writeValue_spec hn (some v)
  have hh1 : hLook hv1 c.head = some nh := (lvfr c.head (fun he => hne he.symm)).trans hh
  by_cases hq : f0 = nid
  · subst hq
    obtain ⟨h4, esf, l4h, l4n, l4f, l4fr, m4⟩ :=
      spliceFront_spec lvat hh1 hne hnhnext lvat hne
    rw [if_pos rfl] at l4n
    obtain ⟨h1', e1', l1at', l1fr', m1'⟩ := writeNext_spec l4n (some f0)
    obtain ⟨h2', e2', l2at', l2fr', m2'⟩ := writePrev_spec l1at' (some f0)
    have hh2' : hLook h2' c.head = some { nh with next := some f0 } := by
      rw [l2fr' c.head (fun he => hne he.symm), l1fr' c.head (fun he => hne he.symm)]
      exact l4h
    obtain ⟨h6, esf2, l6h, l6n, l6f, l6fr, m6⟩ :=
      spliceFront_spec l2at' hh2' hne rfl l2at' hne
    refine ⟨⟨insertA c.hashmap k f0, c.cap, c.len, c.head, c.tail, h4, c.fresh⟩,
      ⟨insertA c.hashmap k f0, c.cap, c.len, c.head, c.tail, h6, c.fresh⟩, ?_, ?_⟩
    · simp only [add, hl, Option.bind_eq_bind, Option.some_bind, ev, Option.map_some',
        esf, if_neg hno, Option.pure_def]
    · simp only [get, lookupA_insertA_self, Option.bind_eq_bind, Option.some_bind,
        l4n, e1', e2', esf2, l6n, Option.pure_def]
  · have hf1 : hLook hv1 f0 = some nf := (lvfr f0 hq).trans hf
    obtain ⟨h4, esf, l4h, l4n, l4f, l4fr, m4⟩ :=
      spliceFront_spec lvat hh1 hne hnhnext hf1 hfh
    rw [if_neg hq] at l4n
    have l4f' := l4f hq
    obtain ⟨h1', e1', l1at', l1fr', m1'⟩ := writeNext_spec l4h (some f0)
    have hf1' : hLook h1' f0 = some { nf with prev := some nid } := by
      rw [l1fr' f0 hfh]
      exact l4f'
    obtain ⟨h2', e2', l2at', l2fr', m2'⟩ := writePrev_spec hf1' (some c.head)
    have hn2' : hLook h2' nid = hLook h4 nid := by
      rw [l2fr' nid (fun he => hq he.symm), l1fr' nid hne]
    rw [l4n] at hn2'
    have hh2' : hLook h2' c.head
        = some { { nh with next := some nid } with next := some f0 } := by
      rw [l2fr' c.head (fun he => hfh he.symm)]
      exact l1at'
    obtain ⟨h6, esf2, l6h, l6n, l6f, l6fr, m6⟩ :=
      spliceFront_spec hn2' hh2' hne rfl l2at' hfh
    refine ⟨⟨insertA c.hashmap k nid, c.cap, c.len, c.head, c.tail, h4, c.fresh⟩,
      ⟨insertA c.hashmap k nid, c.cap, c.len, c.head, c.tail, h6, c.fresh⟩, ?_, ?_⟩
    · simp only [add, hl, Option.bind_eq_bind, Option.some_bind, ev, Option.map_some',
        esf, if_neg hno, Option.pure_def]
    · simp only [get, lookupA_insertA_self, Option.bind_eq_bind, Option.some_bind,
        l4n, e1', e2', esf2, l6n, Option.pure_def]

/-- C6 (amended): on a well-formed cache whose count equals the number of
live entries and stays within a capacity of at least 1, `add(k, v)`
followed immediately by `get(k)` yields `Some(v)`.  (The unrestricted
claim fails at capacity 0, where the added entry self-evicts.) -/
theorem add_get_roundtrip (c : LRUCache K V) (order : List (K × Nat)) (k : K) (v : V)
    (hwf : WF c order) (hlen : c.len = order.length) (hle : c.len ≤ c.cap)
    (hcap : 1 ≤ c.cap) :
    ∃ r c' c'', add k v c = some (r, c') ∧ get k c' = some (some v, c'') := by
  cases ho : lookupA order k with
  | some nid =>
    obtain ⟨c', c'', hadd, hget⟩ := add_existing_get c order k v nid hwf ho
      (Nat.not_lt.mpr hle)
    exact ⟨none, c', c'', hadd, hget⟩
  | none =>
    by_cases hover : c.len + 1 > c.cap
    · rcases List.eq_nil_or_concat order with he | ⟨front, last, he⟩
      · exfalso
        rw [he] at hlen
        simp at hlen
        omega
      · rw [List.concat_eq_append] at he
        subst he
        obtain ⟨lk, lid⟩ := last
        obtain ⟨lv, c', hlv, hadd, hwf', hhm', hlen', hcap', hh', ht', hfr', hval'⟩ :=
          add_new_evict c front lk lid k v hwf ho hover
        have hoc' : lookupA ((k, c.fresh) :: front) k = some c.fresh := by
          simp [lookupA]
        obtain ⟨c'', hget, _⟩ :=
          (get_spec_full c' ((k, c.fresh) :: front) k hwf').1 c.fresh v hoc' hval'
        exact ⟨some (lk, lv), c', c'', hadd, hget⟩
    · obtain ⟨c', hadd, hwf', hhm', hlen', hcap', hh', ht', hfr', hval'⟩ :=
        add_new_noevict c order k v hwf ho hover
      have hoc' : lookupA ((k, c.fresh) :: order) k = some c.fresh := by
        simp [lookupA]
      obtain ⟨c'', hget, _⟩ :=
        (get_spec_full c' ((k, c.fresh) :: order) k hwf').1 c.fresh v hoc' hval'
      exact ⟨none, c', c'', hadd, hget⟩

/-- Counterexample to the unrestricted C6: at capacity 0 the round trip
fails.  `add 1 1` on `new 0` completes (the entry immediately
self-evicts), and the immediate `get 1` returns `none`, not `some 1`. -/
theorem add_get_roundtrip_cex :
    ((add 1 1 (new 0 : LRUCache Nat Nat)).bind fun r1 => get 1 r1.2).map Prod.fst
      = some none := by decide

/-- Witness for the amended C6 at the one-entry sample state, re-adding
the existing key 1 with the new value 9. -/
theorem add_get_roundtrip_witness :
    WF sampleOne [(1, 2)] ∧ sampleOne.len = [(1, 2)].length ∧
    sampleOne.len ≤ sampleOne.cap ∧ 1 ≤ sampleOne.cap ∧
    (∃ r c' c'', add 1 9 sampleOne = some (r, c') ∧
      get 1 c' = some (some 9, c'')) :=
  ⟨by decide, by decide, by decide, by decide,
   add_get_roundtrip sampleOne [(1, 2)] 1 9 (by decide) (by decide) (by decide)
     (by decide)⟩

/-- C1: refuted.  `add` never decrements `len` when it evicts, so after
`new 1; add 1 1; add 2 2` the count is 2, exceeding the capacity 1, and it
also differs from the number of live keys: `peek 1` misses and `peek 2`
hits, so exactly one key is retrievable. -/
theorem len_exceeds_cap_bug :
    ((add 1 1 (new 1 : LRUCache Nat Nat)).bind fun r1 =>
      (add 2 2 r1.2).bind fun r2 =>
        (peek 1 r2.2).bind fun p1 =>
          (peek 2 r2.2).map fun p2 =>
            (r2.2.len, r2.2.cap, r2.1, p1.1, p2.1))
      = some (2, 1, some (1, 1), none, some 2) := by decide

/-- C2: refuted.  `add` on an existing key splices the node behind the
head sentinel without unlinking it first, corrupting the list: after
`new 5; add 1 1; add 2 2; add 1 3` the `next` chain from the head sentinel
(node 0) runs 2, 3, 2, ... in a cycle that never reaches the tail sentinel
(node 1), while the tail's `prev` still points at node 2 — so `get_last`
returns 3, the value of the most recently used key. -/
theorem add_existing_corrupts_order_bug :
    ((add 1 1 (new 5 : LRUCache Nat Nat)).bind fun r1 =>
      (add 2 2 r1.2).bind fun r2 =>
        (add 1 3 r2.2).map fun r3 =>
          (nxt r3.2.heap r3.2.head, nxt r3.2.heap 2, nxt r3.2.heap 3,
           prv r3.2.heap r3.2.tail, getLast r3.2))
      = some (some 2, some 3, some 2, some 2, some 3) := by decide

/-- C3: refuted on its count clause.  Adding a new key at capacity does
evict and return the least-recently-used pair, but the count is never
decremented: after `new 1; add 1 1; add 2 2` the eviction returns
`Some((1, 1))` while `len` is 2 instead of 1. -/
theorem add_evict_len_not_decremented_bug :
    ((add 1 1 (new 1 : LRUCache Nat Nat)).bind fun r1 =>
      (add 2 2 r1.2).map fun r2 => (r2.1, r2.2.len)) = some (some (1, 1), 2) := by decide

/-- C4: refuted.  In the reachable state after `new 1; add 1 1; add 2 2`
(where `len` is stuck at 2 > capacity), re-adding the present key 2 takes
the eviction path: it returns `Some((2, 9))` instead of `None`, and the
key it just updated is evicted, so `peek 2` afterwards misses. -/
theorem add_existing_self_evicts_bug :
    ((add 1 1 (new 1 : LRUCache Nat Nat)).bind fun r1 =>
      (add 2 2 r1.2).bind fun r2 =>
        (add 2 9 r2.2).bind fun r3 =>
          (peek 2 r3.2).map fun p => (r3.1, p.1, r3.2.len))
      = some (some (2, 9), none, 2) := by decide

/-- Witness for C5 at the one-entry sample state: `get 1` hits, returns
the stored value 7 and preserves index and count. -/
theorem get_spec_witness :
    WF sampleOne [(1, 2)] ∧
    ∃ c', get 1 sampleOne = some (some 7, c') ∧
      WF c' ((1, 2) :: removeA [(1, 2)] 1) ∧
      c'.hashmap = sampleOne.hashmap ∧ c'.len = sampleOne.len ∧
      c'.cap = sampleOne.cap ∧ c'.head = sampleOne.head ∧
      c'.tail = sampleOne.tail :=
  ⟨by decide, (get_spec sampleOne [(1, 2)] 1 (by decide)).1 2 7 (by decide) (by decide)⟩

/-- Witness for C7 at the one-entry sample state: `peek 1` returns the
stored value 7 and leaves the cache untouched. -/
theorem peek_spec_witness :
    WF sampleOne [(1, 2)] ∧ peek 1 sampleOne = some (some 7, sampleOne) :=
  ⟨by decide, (peek_spec sampleOne [(1, 2)] 1 (by decide)).1 2 7 (by decide) (by decide)⟩

/-- Witness for C8 at the one-entry sample state: `remove 1` returns the
stored value 7, empties the index and decrements the count. -/
theorem remove_spec_witness :
    WF sampleOne [(1, 2)] ∧
    ∃ c', remove 1 sampleOne = some (some 7, c') ∧ WF c' (removeA [(1, 2)] 1) ∧
      c'.len = sampleOne.len - 1 ∧ c'.hashmap = removeA sampleOne.hashmap 1 ∧
      lookupA c'.hashmap 1 = none ∧
      c'.cap = sampleOne.cap ∧ c'.head = sampleOne.head ∧
      c'.tail = sampleOne.tail :=
  ⟨by decide, (remove_spec sampleOne [(1, 2)] 1 (by decide)).1 2 7 (by decide) (by decide)⟩

/-- Witness for C9 at the freshly constructed cache `new 3`: both
`get_first` and `get_last` hit the failing unwrap (result `none`). -/
theorem getFirst_getLast_empty_witness :
    WF (new 3 : LRUCache Nat Nat) [] ∧
    (nxt (new 3 : LRUCache Nat Nat).heap (new 3 : LRUCache Nat Nat).head
        = some (new 3 : LRUCache Nat Nat).tail ∧
     valOf (new 3 : LRUCache Nat Nat).heap (new 3 : LRUCache Nat Nat).tail = none ∧
     getFirst (new 3 : LRUCache Nat Nat) = none ∧
     getLast (new 3 : LRUCache Nat Nat) = none) :=
  ⟨by decide, (getFirst_getLast_empty_spec (new 3) [] (by decide)).1 rfl⟩

end LRU
